import Mathlib

/-!
Verification of the crystal symmetry-analysis core (`crystal.py`).

The Python code computes with numpy double-precision floats; this development
embeds it shallowly over the exact rationals `ℚ`, reproducing the code's
explicit numeric tolerances (`1e-8` absolute, numpy's default
`atol=1e-8, rtol=1e-5` for `isclose`/`allclose`) and numpy's
round-half-to-even rounding exactly.  Vectors are triples of rationals,
integer lattice matrices are triples of integer triples.
-/

/-- Absolute tolerance used throughout `crystal.py` (default `threshold=1e-8`). -/
def qtol : ℚ := 1 / 100000000

/-- numpy's default relative tolerance for `isclose`/`allclose` (`rtol=1e-5`). -/
def qrtol : ℚ := 1 / 100000

/-- A 3-vector of rationals (a numpy `array[3]` of floats). -/
structure V3 where
  x : ℚ
  y : ℚ
  z : ℚ
deriving DecidableEq, Repr

/-- A 3-vector of integers (a numpy integer `array[3]`). -/
structure VI3 where
  x : ℤ
  y : ℤ
  z : ℤ
deriving DecidableEq, Repr

/-- A 3x3 rational matrix, row-major fields `a(row)(col)` (numpy `array[3,3]`). -/
structure M3 where
  a00 : ℚ
  a01 : ℚ
  a02 : ℚ
  a10 : ℚ
  a11 : ℚ
  a12 : ℚ
  a20 : ℚ
  a21 : ℚ
  a22 : ℚ
deriving DecidableEq, Repr

/-- A 3x3 integer matrix, row-major (numpy integer `array[3,3]`). -/
structure MI3 where
  a00 : ℤ
  a01 : ℤ
  a02 : ℤ
  a10 : ℤ
  a11 : ℤ
  a12 : ℤ
  a20 : ℤ
  a21 : ℤ
  a22 : ℤ
deriving DecidableEq, Repr

def V3.zero : V3 := ⟨0, 0, 0⟩

def V3.add (a b : V3) : V3 := ⟨a.x + b.x, a.y + b.y, a.z + b.z⟩

def V3.sub (a b : V3) : V3 := ⟨a.x - b.x, a.y - b.y, a.z - b.z⟩

def V3.neg (a : V3) : V3 := ⟨-a.x, -a.y, -a.z⟩

def V3.smul (c : ℚ) (a : V3) : V3 := ⟨c * a.x, c * a.y, c * a.z⟩

/-- Dot product `np.dot(a, b)` of two 3-vectors. -/
def V3.dot (a b : V3) : ℚ := a.x * b.x + a.y * b.y + a.z * b.z

def VI3.zero : VI3 := ⟨0, 0, 0⟩

def VI3.add (a b : VI3) : VI3 := ⟨a.x + b.x, a.y + b.y, a.z + b.z⟩

def VI3.neg (a : VI3) : VI3 := ⟨-a.x, -a.y, -a.z⟩

/-- Dot product of integer 3-vectors. -/
def VI3.dot (a b : VI3) : ℤ := a.x * b.x + a.y * b.y + a.z * b.z

/-- Cross product `np.cross` of integer 3-vectors. -/
def VI3.cross (a b : VI3) : VI3 :=
  ⟨a.y * b.z - a.z * b.y, a.z * b.x - a.x * b.z, a.x * b.y - a.y * b.x⟩

/-- Cast an integer vector to a rational vector. -/
def VI3.toV3 (a : VI3) : V3 := ⟨(a.x : ℚ), (a.y : ℚ), (a.z : ℚ)⟩

def M3.id : M3 := ⟨1, 0, 0, 0, 1, 0, 0, 0, 1⟩

/-- Matrix-vector product `np.dot(M, v)`. -/
def M3.mulV (m : M3) (v : V3) : V3 :=
  ⟨m.a00 * v.x + m.a01 * v.y + m.a02 * v.z,
   m.a10 * v.x + m.a11 * v.y + m.a12 * v.z,
   m.a20 * v.x + m.a21 * v.y + m.a22 * v.z⟩

/-- Matrix-matrix product `np.dot(A, B)`. -/
def M3.mul (a b : M3) : M3 :=
  ⟨a.a00 * b.a00 + a.a01 * b.a10 + a.a02 * b.a20,
   a.a00 * b.a01 + a.a01 * b.a11 + a.a02 * b.a21,
   a.a00 * b.a02 + a.a01 * b.a12 + a.a02 * b.a22,
   a.a10 * b.a00 + a.a11 * b.a10 + a.a12 * b.a20,
   a.a10 * b.a01 + a.a11 * b.a11 + a.a12 * b.a21,
   a.a10 * b.a02 + a.a11 * b.a12 + a.a12 * b.a22,
   a.a20 * b.a00 + a.a21 * b.a10 + a.a22 * b.a20,
   a.a20 * b.a01 + a.a21 * b.a11 + a.a22 * b.a21,
   a.a20 * b.a02 + a.a21 * b.a12 + a.a22 * b.a22⟩

def M3.transpose (m : M3) : M3 :=
  ⟨m.a00, m.a10, m.a20, m.a01, m.a11, m.a21, m.a02, m.a12, m.a22⟩

/-- Determinant of a 3x3 rational matrix (`np.linalg.det`). -/
def M3.det (m : M3) : ℚ :=
  m.a00 * (m.a11 * m.a22 - m.a12 * m.a21)
  - m.a01 * (m.a10 * m.a22 - m.a12 * m.a20)
  + m.a02 * (m.a10 * m.a21 - m.a11 * m.a20)

/-- Adjugate (transposed cofactor matrix) of a 3x3 rational matrix. -/
def M3.adj (m : M3) : M3 :=
  ⟨m.a11 * m.a22 - m.a12 * m.a21, -(m.a01 * m.a22 - m.a02 * m.a21), m.a01 * m.a12 - m.a02 * m.a11,
   -(m.a10 * m.a22 - m.a12 * m.a20), m.a00 * m.a22 - m.a02 * m.a20, -(m.a00 * m.a12 - m.a02 * m.a10),
   m.a10 * m.a21 - m.a11 * m.a20, -(m.a00 * m.a21 - m.a01 * m.a20), m.a00 * m.a11 - m.a01 * m.a10⟩

def M3.smul (c : ℚ) (m : M3) : M3 :=
  ⟨c * m.a00, c * m.a01, c * m.a02, c * m.a10, c * m.a11, c * m.a12,
   c * m.a20, c * m.a21, c * m.a22⟩

/-- Exact inverse of a nonsingular 3x3 rational matrix; models `np.linalg.inv`
on an invertible matrix (for singular input it returns the zero matrix, where
numpy would raise). -/
def M3.inv3 (m : M3) : M3 := M3.smul m.det⁻¹ m.adj

def MI3.id : MI3 := ⟨1, 0, 0, 0, 1, 0, 0, 0, 1⟩

def MI3.mul (a b : MI3) : MI3 :=
  ⟨a.a00 * b.a00 + a.a01 * b.a10 + a.a02 * b.a20,
   a.a00 * b.a01 + a.a01 * b.a11 + a.a02 * b.a21,
   a.a00 * b.a02 + a.a01 * b.a12 + a.a02 * b.a22,
   a.a10 * b.a00 + a.a11 * b.a10 + a.a12 * b.a20,
   a.a10 * b.a01 + a.a11 * b.a11 + a.a12 * b.a21,
   a.a10 * b.a02 + a.a11 * b.a12 + a.a12 * b.a22,
   a.a20 * b.a00 + a.a21 * b.a10 + a.a22 * b.a20,
   a.a20 * b.a01 + a.a21 * b.a11 + a.a22 * b.a21,
   a.a20 * b.a02 + a.a21 * b.a12 + a.a22 * b.a22⟩

/-- Integer matrix applied to a rational vector (`np.dot(rot, u)`). -/
def MI3.mulV (m : MI3) (v : V3) : V3 :=
  ⟨(m.a00 : ℚ) * v.x + (m.a01 : ℚ) * v.y + (m.a02 : ℚ) * v.z,
   (m.a10 : ℚ) * v.x + (m.a11 : ℚ) * v.y + (m.a12 : ℚ) * v.z,
   (m.a20 : ℚ) * v.x + (m.a21 : ℚ) * v.y + (m.a22 : ℚ) * v.z⟩

/-- Integer matrix applied to an integer vector. -/
def MI3.mulVI (m : MI3) (v : VI3) : VI3 :=
  ⟨m.a00 * v.x + m.a01 * v.y + m.a02 * v.z,
   m.a10 * v.x + m.a11 * v.y + m.a12 * v.z,
   m.a20 * v.x + m.a21 * v.y + m.a22 * v.z⟩

def MI3.det (m : MI3) : ℤ :=
  m.a00 * (m.a11 * m.a22 - m.a12 * m.a21)
  - m.a01 * (m.a10 * m.a22 - m.a12 * m.a20)
  + m.a02 * (m.a10 * m.a21 - m.a11 * m.a20)

def MI3.adj (m : MI3) : MI3 :=
  ⟨m.a11 * m.a22 - m.a12 * m.a21, -(m.a01 * m.a22 - m.a02 * m.a21), m.a01 * m.a12 - m.a02 * m.a11,
   -(m.a10 * m.a22 - m.a12 * m.a20), m.a00 * m.a22 - m.a02 * m.a20, -(m.a00 * m.a12 - m.a02 * m.a10),
   m.a10 * m.a21 - m.a11 * m.a20, -(m.a00 * m.a21 - m.a01 * m.a20), m.a00 * m.a11 - m.a01 * m.a10⟩

def MI3.smulI (c : ℤ) (m : MI3) : MI3 :=
  ⟨c * m.a00, c * m.a01, c * m.a02, c * m.a10, c * m.a11, c * m.a12,
   c * m.a20, c * m.a21, c * m.a22⟩

def MI3.transpose (m : MI3) : MI3 :=
  ⟨m.a00, m.a10, m.a20, m.a01, m.a11, m.a21, m.a02, m.a12, m.a22⟩

def MI3.toM3 (m : MI3) : M3 :=
  ⟨(m.a00 : ℚ), (m.a01 : ℚ), (m.a02 : ℚ), (m.a10 : ℚ), (m.a11 : ℚ), (m.a12 : ℚ),
   (m.a20 : ℚ), (m.a21 : ℚ), (m.a22 : ℚ)⟩

/-- Matrix with the given columns (`np.array((r0, r1, r2)).T`). -/
def MI3.ofCols (r0 r1 r2 : VI3) : MI3 :=
  ⟨r0.x, r1.x, r2.x, r0.y, r1.y, r2.y, r0.z, r1.z, r2.z⟩

/-- Column `d` of a rational matrix (the lattice vector `lattice[:,d]`). -/
def M3.col (m : M3) (d : ℕ) : V3 :=
  if d = 0 then ⟨m.a00, m.a10, m.a20⟩
  else if d = 1 then ⟨m.a01, m.a11, m.a21⟩
  else ⟨m.a02, m.a12, m.a22⟩

/-- Entry accessor `m[i, j]` for a rational matrix. -/
def M3.entry (m : M3) (i j : ℕ) : ℚ :=
  if i = 0 then (if j = 0 then m.a00 else if j = 1 then m.a01 else m.a02)
  else if i = 1 then (if j = 0 then m.a10 else if j = 1 then m.a11 else m.a12)
  else (if j = 0 then m.a20 else if j = 1 then m.a21 else m.a22)

/-! ## numpy-style numeric helpers -/

/-- numpy `np.round` / `np.around` on a rational scalar: round half to even. -/
def nround (q : ℚ) : ℤ :=
  let f : ℤ := ⌊q⌋
  let r : ℚ := q - (f : ℚ)
  if r < 1/2 then f
  else if 1/2 < r then f + 1
  else if f % 2 = 0 then f else f + 1

/-- Componentwise `np.round` of a rational 3-vector, cast to integers
(`np.round(...).astype(int)`). -/
def nroundV (v : V3) : VI3 := ⟨nround v.x, nround v.y, nround v.z⟩

/-- numpy `np.isclose(a, b)` with default tolerances: `|a-b| <= atol + rtol*|b|`. -/
def nisclose (a b : ℚ) : Bool := |a - b| ≤ qtol + qrtol * |b|

/-- numpy `np.allclose` on 3-vectors (componentwise `isclose`, all). -/
def nallcloseV (a b : V3) : Bool :=
  nisclose a.x b.x && nisclose a.y b.y && nisclose a.z b.z

/-- numpy `np.allclose` on 3x3 matrices. -/
def nallcloseM (a b : M3) : Bool :=
  nisclose a.a00 b.a00 && nisclose a.a01 b.a01 && nisclose a.a02 b.a02 &&
  nisclose a.a10 b.a10 && nisclose a.a11 b.a11 && nisclose a.a12 b.a12 &&
  nisclose a.a20 b.a20 && nisclose a.a21 b.a21 && nisclose a.a22 b.a22

/-- `np.all(abs(v) < threshold)` for a 3-vector. -/
def smallV (v : V3) (threshold : ℚ) : Bool :=
  |v.x| < threshold && |v.y| < threshold && |v.z| < threshold

/-- `incell(vec)` on one component: `vec - np.floor(vec + 1.0e-8)`. -/
def incellQ (q : ℚ) : ℚ := q - (⌊q + qtol⌋ : ℚ)

/-- `incell(vec)`: wrap a fractional vector using the epsilon-biased floor. -/
def incellV (v : V3) : V3 := ⟨incellQ v.x, incellQ v.y, incellQ v.z⟩

/-- `inhalf(vec)` on one component: `vec - np.floor(vec + 0.5)`. -/
def inhalfQ (q : ℚ) : ℚ := q - (⌊q + 1/2⌋ : ℚ)

/-- `inhalf(vec)`: wrap a fractional vector into the centered cell. -/
def inhalfV (v : V3) : V3 := ⟨inhalfQ v.x, inhalfQ v.y, inhalfQ v.z⟩

/-! ## Claim C8: ranges of `incell` and `inhalf` -/

theorem incellQ_bounds (q : ℚ) : -qtol ≤ incellQ q ∧ incellQ q < 1 - qtol := by
  unfold incellQ
  constructor
  · have h := Int.floor_le (q + qtol)
    linarith
  · have h := Int.sub_one_lt_floor (q + qtol)
    linarith

theorem inhalfQ_bounds (q : ℚ) : -(1/2) ≤ inhalfQ q ∧ inhalfQ q < 1/2 := by
  unfold inhalfQ
  constructor
  · have h := Int.floor_le (q + 1/2)
    linarith
  · have h := Int.sub_one_lt_floor (q + 1/2)
    linarith

/-- Claim C8 (corrected): the claim asserts `incell` lands in `[0,1)` in every
component, but the epsilon bias in `vec - floor(vec + 1e-8)` makes a component
just below an integer wrap to a slightly negative value.  Concretely,
`incell((1 - 1e-9, 0, 0))` has first component `-1e-9 < 0`. -/
theorem claimC8_counterexample :
    (incellV ⟨1 - 1/1000000000, 0, 0⟩).x < 0 := by
  norm_num [incellV, incellQ, qtol]

/-- Claim C8 (amended): every component of `incell(v)` lies in
`[-1e-8, 1 - 1e-8)` (the `[0,1)` window shifted down by the epsilon bias), and
every component of `inhalf(v)` lies in `[-0.5, 0.5)` as claimed. -/
theorem claimC8_amended (v : V3) :
    (-qtol ≤ (incellV v).x ∧ (incellV v).x < 1 - qtol) ∧
    (-qtol ≤ (incellV v).y ∧ (incellV v).y < 1 - qtol) ∧
    (-qtol ≤ (incellV v).z ∧ (incellV v).z < 1 - qtol) ∧
    (-(1/2) ≤ (inhalfV v).x ∧ (inhalfV v).x < 1/2) ∧
    (-(1/2) ≤ (inhalfV v).y ∧ (inhalfV v).y < 1/2) ∧
    (-(1/2) ≤ (inhalfV v).z ∧ (inhalfV v).z < 1/2) :=
  ⟨incellQ_bounds v.x, incellQ_bounds v.y, incellQ_bounds v.z,
   inhalfQ_bounds v.x, inhalfQ_bounds v.y, inhalfQ_bounds v.z⟩

/-! ## List helpers mirroring the Python iteration patterns -/

/-- Index of the first element satisfying the predicate (the inner
`for j, uj in enumerate(atomlist0): if ...: append(j); break` pattern). -/
def findIdxA {α : Type} (p : α → Bool) : List α → Option ℕ
  | [] => none
  | a :: t => if p a then some 0 else (findIdxA p t).map (· + 1)

/-- First successful result of `f` over a list (a `for`-loop with `break` on
success, returning nothing if the loop completes). -/
def pickFirst {α β : Type} (f : α → Option β) : List α → Option β
  | [] => none
  | a :: t => match f a with
    | some b => some b
    | none => pickFirst f t

/-- Enumerate a list with indices starting at `i` (Python `enumerate`). -/
def enumFrom {α : Type} (i : ℕ) : List α → List (ℕ × α)
  | [] => []
  | a :: t => (i, a) :: enumFrom (i + 1) t

/-- The `maxlen`/`atomindex` scan shared by `maptranslation` and `reduce`:
returns `(maxlen, index)` of the first species list of maximal length. -/
def maxlenIdx (basis : List (List V3)) : ℕ × ℕ :=
  (enumFrom 0 basis).foldl
    (fun acc p => if p.2.length > acc.1 then (p.2.length, p.1) else acc) (0, 0)

/-! ## maptranslation -/

/-- One species group of `maptranslation`: for each transformed position pick
the first original position matching modulo a lattice vector, and require
that every transformed position found a partner. -/
def speciesMap (θ : ℚ) (t : V3) (a0 a1 : List V3) : Option (List ℕ) :=
  let ml := a1.filterMap (fun rua =>
    findIdxA (fun uj => smallV (inhalfV (V3.sub (V3.sub uj rua) t)) θ) a0)
  if ml.length = a0.length then some ml else none

/-- All species groups of `maptranslation` for a fixed candidate translation
(the `for atomlist0, atomlist1 in zip(oldpos, newpos)` loop; `zip` truncates
to the shorter list). -/
def tryZip (θ : ℚ) (t : V3) : List (List V3) → List (List V3) → Option (List (List ℕ))
  | [], _ => some []
  | _ :: _, [] => some []
  | a0 :: r0, a1 :: r1 =>
    match speciesMap θ t a0 a1, tryZip θ t r0 r1 with
    | some m, some ms => some (m :: ms)
    | _, _ => none

/-- `maptranslation(oldpos, newpos, threshold)`: search the species group with
the most positions for an anchor whose difference to `newpos`'s first anchor
position gives a translation mapping every species group onto itself.
Returns the translation and index map on success (`(None, None)` otherwise).
Where Python would raise `IndexError` on an empty anchor group, the embedding
uses a default (never exercised by the theorems below). -/
def maptranslationQ (θ : ℚ) (oldpos newpos : List (List V3)) :
    Option (V3 × List (List ℕ)) :=
  let ai := (maxlenIdx oldpos).2
  let ru0 := (newpos.getD ai []).getD 0 V3.zero
  pickFirst (fun ub =>
    let t := inhalfV (V3.sub ub ru0)
    (tryZip θ t oldpos newpos).map (fun m => (t, m))) (oldpos.getD ai [])

/-! ## GroupOp algebra -/

/-- A space-group operation: integer rotation on fractional coordinates, a
fractional translation, the Cartesian rotation, and the per-species index map
(`GroupOp` namedtuple). -/
structure GroupOp where
  rot : MI3
  trans : V3
  cartrot : M3
  indexmap : List (List ℕ)
deriving DecidableEq, Repr

/-- `GroupOp.ident(basis)`: identity rotation, zero translation, identity
index map for each species. -/
def identOp (basis : List (List V3)) : GroupOp :=
  ⟨MI3.id, V3.zero, M3.id, basis.map (fun al => List.range al.length)⟩

/-- Index-map composition from `GroupOp.__mul__`:
`[[atomlist0[i] for i in atomlist1] for atomlist0, atomlist1 in zip(...)]`.
Python raises on an out-of-range index; the embedding defaults to `0`
(theorems that use this carry in-range hypotheses). -/
def composeIM (a b : List (List ℕ)) : List (List ℕ) :=
  List.zipWith (fun al0 al1 => al1.map (fun i => al0.getD i 0)) a b

/-- `GroupOp.__mul__`: `(R1,t1)*(R2,t2) = (R1 R2, R1 t2 + t1)`, Cartesian
rotations multiplied, index maps composed. -/
def GroupOp.mul (g h : GroupOp) : GroupOp :=
  ⟨MI3.mul g.rot h.rot,
   V3.add (MI3.mulV g.rot h.trans) g.trans,
   M3.mul g.cartrot h.cartrot,
   composeIM g.indexmap h.indexmap⟩

/-- Ascending lexicographic comparison on pairs (Python tuple order). -/
def lexleB (p q : ℕ × ℕ) : Bool := p.1 < q.1 || (p.1 == q.1 && p.2 ≤ q.2)

/-- Insert into a lex-sorted list of pairs. -/
def insLex (p : ℕ × ℕ) : List (ℕ × ℕ) → List (ℕ × ℕ)
  | [] => [p]
  | q :: t => if lexleB p q then p :: q :: t else q :: insLex p t

/-- Insertion sort on pairs, modelling Python `sorted` (ascending lex). -/
def sortLex : List (ℕ × ℕ) → List (ℕ × ℕ)
  | [] => []
  | p :: t => insLex p (sortLex t)

/-- The index-map inversion from `GroupOp.inv`:
`[x for i, x in sorted([(y, j) for j, y in enumerate(atomlist)])]`. -/
def invPermL (l : List ℕ) : List ℕ :=
  (sortLex ((enumFrom 0 l).map (fun p => (p.2, p.1)))).map (fun p => p.2)

/-- `GroupOp.inv`: the rotation inverse is
`np.round(np.linalg.inv(rot)).astype(int)`, which for an integer matrix of
determinant one in absolute value is exactly `det * adjugate`; translation
`-R⁻¹ t`, Cartesian rotation transposed, index maps inverted. -/
def GroupOp.inv (g : GroupOp) : GroupOp :=
  let ri := MI3.smulI g.rot.det g.rot.adj
  ⟨ri, V3.neg (MI3.mulV ri g.trans), M3.transpose g.cartrot,
   g.indexmap.map invPermL⟩

/-- `GroupOp.inhalf`: same operation with the translation wrapped into the
centered cell. -/
def GroupOp.inhalfOp (g : GroupOp) : GroupOp :=
  ⟨g.rot, inhalfV g.trans, g.cartrot, g.indexmap⟩

/-- `GroupOp.__eq__`: exact on the integer rotation and index map,
`np.allclose` on the translation and Cartesian rotation. -/
def gopEq (a b : GroupOp) : Bool :=
  a.rot == b.rot && nallcloseV a.trans b.trans && nallcloseM a.cartrot b.cartrot &&
  a.indexmap == b.indexmap

/-- Membership in the space group (`g in self.G`, a frozenset probed through
`GroupOp.__eq__`). -/
def memOp (G : List GroupOp) (g : GroupOp) : Bool := G.any (fun h => gopEq h g)

/-! ## Space-group generation (`Crystal.gengroup`) -/

/-- The 26 integer vectors with components in `{-1, 0, 1}`, except zero. -/
def supercellvect : List VI3 :=
  ([-1, 0, 1] : List ℤ).flatMap (fun n0 =>
    ([-1, 0, 1] : List ℤ).flatMap (fun n1 =>
      ([-1, 0, 1] : List ℤ).filterMap (fun n2 =>
        if n0 = 0 ∧ n1 = 0 ∧ n2 = 0 then none else some ⟨n0, n1, n2⟩)))

/-- `np.dot(u, np.dot(metric, u))` for an integer vector. -/
def uMu (M : M3) (u : VI3) : ℚ := V3.dot u.toV3 (M3.mulV M u.toV3)

/-- Per-axis candidate columns: vectors whose metric norm matches the
diagonal metric entry for that axis (`np.isclose`). -/
def matchvect (M : M3) (d : ℕ) : List VI3 :=
  supercellvect.filter (fun u => nisclose (uMu M u) (M.entry d d))

/-- Candidate rotation matrices: Cartesian product of per-axis candidates,
restricted to triple product (determinant) of absolute value one. -/
def candidates (M : M3) : List MI3 :=
  (matchvect M 0).flatMap (fun r0 =>
    (matchvect M 1).flatMap (fun r1 =>
      (matchvect M 2).filterMap (fun r2 =>
        if (VI3.dot r0 (VI3.cross r1 r2)).natAbs = 1 then
          some (MI3.ofCols r0 r1 r2)
        else none)))

/-- `Crystal.gengroup`: keep the candidates that exactly preserve the metric
(`np.allclose(supercell.T @ metric @ supercell, metric)`) and that admit a
translation mapping of the decorated basis; synthesize the Cartesian rotation
as `lattice @ supercell @ invlatt`. -/
def gengroupQ (latt invlatt M : M3) (basis : List (List V3)) : List GroupOp :=
  (candidates M).filterMap (fun S =>
    if nallcloseM (M3.mul (MI3.toM3 S).transpose (M3.mul M (MI3.toM3 S))) M then
      match maptranslationQ qtol basis
          (basis.map (fun al => al.map (fun u => MI3.mulV S u))) with
      | some (t, m) =>
        some ⟨S, t, M3.mul latt (M3.mul (MI3.toM3 S) invlatt), m⟩
      | none => none
    else none)

/-- `Crystal.calcmetric`: the metric tensor `lattice.T @ lattice`. -/
def metricOf (latt : M3) : M3 := M3.mul latt.transpose latt


/-! ## Basis/lattice normalization: `reduce`, `minlattice`, `center` -/

/-- Total number of atoms in a basis (`self.N`, the length of
`self.atomindices`). -/
def totalCount (B : List (List V3)) : ℕ := (B.map List.length).sum

/-- `Crystal.remapbasis(supercell)`:
`[[incell(invsuper @ u) for u in atomlist] for atomlist in basis]`. -/
def remapbasisQ (invsuper : M3) (B : List (List V3)) : List (List V3) :=
  B.map (fun al => al.map (fun u => incellV (M3.mulV invsuper u)))

/-- The test inside `Crystal.reduce`: `t` maps every species group onto
itself modulo a lattice vector. -/
def isTransSym (B : List (List V3)) (t : V3) : Bool :=
  B.all (fun al => al.all (fun u =>
    al.any (fun v => smallV (inhalfV (V3.sub (V3.add u t) v)) qtol)))

/-- The supercell assembled in `Crystal.reduce`: the identity with the first
column (in order `d = 0, 1, 2`) replaced by `t` that gives a determinant not
close to zero; if all three are close to singular the `d = 2` variant is kept
(as the Python loop leaves it). -/
def redSupercell (t : V3) : M3 :=
  let s0 : M3 := ⟨t.x, 0, 0, t.y, 1, 0, t.z, 0, 1⟩
  let s1 : M3 := ⟨1, t.x, 0, 0, t.y, 0, 0, t.z, 1⟩
  let s2 : M3 := ⟨1, 0, t.x, 0, 1, t.y, 0, 0, t.z⟩
  if ¬ (|s0.det| ≤ qtol) then s0
  else if ¬ (|s1.det| ≤ qtol) then s1
  else s2

/-- The deduplication loop in `Crystal.reduce`: keep a remapped position only
if it is not `np.allclose` to one already kept. -/
def dedupPos (l : List V3) : List V3 :=
  l.foldl (fun acc v => if acc.all (fun v1 => ¬ nallcloseV v v1) then acc ++ [v] else acc) []

/-- `Crystal.reduce`: find a nontrivial displacement between positions of the
most-populous species that is a translation symmetry of the whole basis; if
found, re-express the lattice in the sub-lattice basis, deduplicate, and
recurse.  The recursion is bounded by explicit fuel; each successful
reduction strictly shrinks the basis, so any fuel of at least the total atom
count reproduces the Python recursion (which is unbounded). -/
def reduceQ : ℕ → M3 → List (List V3) → M3 × List (List V3)
  | 0, L, B => (L, B)
  | fuel + 1, L, B =>
    let ml := maxlenIdx B
    if ml.1 = 1 then (L, B)
    else
      let initpos := (B.getD ml.2 []).getD 0 V3.zero
      match pickFirst (fun newpos =>
          let t := V3.sub newpos initpos
          if t = V3.zero then none
          else if isTransSym B t then some t else none) (B.getD ml.2 []) with
      | none => (L, B)
      | some t =>
        let sup := redSupercell t
        let invsuper := M3.inv3 sup
        let B1 := (B.map (fun al => al.map (fun u => incellV (M3.mulV invsuper u)))).map dedupPos
        reduceQ fuel (M3.mul L sup) B1

/-- Lexicographic comparison on `(squared length, index)` pairs used to sort
`magnlist` (Python `sorted` on tuples). -/
def plebQ (p q : ℚ × ℕ) : Bool := p.1 < q.1 || (p.1 == q.1 && p.2 ≤ q.2)

def insMagn (p : ℚ × ℕ) : List (ℚ × ℕ) → List (ℚ × ℕ)
  | [] => [p]
  | q :: t => if plebQ p q then p :: q :: t else q :: insMagn p t

def sortMagn : List (ℚ × ℕ) → List (ℚ × ℕ)
  | [] => []
  | p :: t => insMagn p (sortMagn t)

/-- The permutation matrix built from the sorted `magnlist`:
`super[j, i] = 1` for `i, (magn, j) in enumerate(magnlist)`. -/
def superFromSorted (l : List (ℚ × ℕ)) : MI3 :=
  let j0 := (l.getD 0 (0, 0)).2
  let j1 := (l.getD 1 (0, 0)).2
  let j2 := (l.getD 2 (0, 0)).2
  let f : ℕ → ℕ → ℤ := fun j r => if j = r then 1 else 0
  ⟨f j0 0, f j1 0, f j2 0, f j0 1, f j1 1, f j2 1, f j0 2, f j1 2, f j2 2⟩

/-- Negate the last column (`super[:, 2] = -super[:, 2]`). -/
def flipCol2 (m : MI3) : MI3 :=
  ⟨m.a00, m.a01, -m.a02, m.a10, m.a11, -m.a12, m.a20, m.a21, -m.a22⟩

/-- The single Lagrange-reduction step of `Crystal.minlattice`: identity with
one off-diagonal entry set, following the `if/elif` chain. -/
def lagrangeSup (u0 u1 u2 : ℤ) : MI3 :=
  if u0 ≠ 0 then ⟨1, -u0, 0, 0, 1, 0, 0, 0, 1⟩
  else if u1 ≠ 0 then ⟨1, 0, -u1, 0, 1, 0, 0, 0, 1⟩
  else ⟨1, 0, 0, 0, 1, -u2, 0, 0, 1⟩

/-- `Crystal.minlattice`: sort lattice vectors by squared length, enforce
right-handedness by flipping the last sorted vector, then repeatedly subtract
the rounded projection of one vector on another (one off-diagonal per pass),
recursing to a fixed point.  Fuel bounds the recursion (the Python recursion
is unbounded; it terminates because the squared lengths strictly decrease on
the discrete set of lattice vectors). -/
def minlatticeQ : ℕ → M3 → List (List V3) → M3 × List (List V3)
  | 0, L, B => (L, B)
  | fuel + 1, L, B =>
    let m0 := V3.dot (L.col 0) (L.col 0)
    let m1 := V3.dot (L.col 1) (L.col 1)
    let m2 := V3.dot (L.col 2) (L.col 2)
    let sorted := sortMagn [(m0, 0), (m1, 1), (m2, 2)]
    let sup0 := superFromSorted sorted
    let sup := if L.det * ((sup0.det : ℤ) : ℚ) < 0 then flipCol2 sup0 else sup0
    let LB1 := if sup = MI3.id then (L, B)
               else (M3.mul L (MI3.toM3 sup), remapbasisQ (M3.inv3 (MI3.toM3 sup)) B)
    let L1 := LB1.1
    let B1 := LB1.2
    let asq := metricOf L1
    let u0 := nround (asq.a01 / asq.a00)
    let u1 := nround (asq.a02 / asq.a00)
    let u2 := nround (asq.a12 / asq.a11)
    if u0 = 0 ∧ u1 = 0 ∧ u2 = 0 then (L1, B1)
    else
      let sup2 := lagrangeSup u0 u1 u2
      minlatticeQ fuel (M3.mul L1 (MI3.toM3 sup2)) (remapbasisQ (M3.inv3 (MI3.toM3 sup2)) B1)

/-- The per-dimension origin shift chosen by the "aesthetics" pass of
`Crystal.center`: `0` if some coordinate is close to `0`; else `0.5` if some
coordinate is close to `0.5`; else `0.5` if a majority of coordinates lie
outside `[0.25, 0.75]`; else `0`. -/
def shiftComp (vals : List ℚ) (N : ℕ) : ℚ :=
  if vals.any (fun q => |q| ≤ qtol) then 0
  else if vals.any (fun q => |q - 1/2| ≤ qtol + qrtol * (1/2)) then 1/2
  else if N < 2 * (vals.filter (fun q => q < 1/4 ∨ 3/4 < q)).length then 1/2
  else 0

/-- `Crystal.center`: a single atom is centered at the origin outright;
otherwise, if the basis maps onto its own negation by a translation, shift
the origin to the inversion center and apply the aesthetic shift. -/
def centerQ (B : List (List V3)) : List (List V3) :=
  let N := totalCount B
  if N = 1 then [[V3.zero]]
  else
    match maptranslationQ qtol B (B.map (fun al => al.map V3.neg)) with
    | none => B
    | some tm =>
      let t := tm.1
      let B1 := B.map (fun al => al.map (fun u => incellV (V3.sub u (V3.smul (1/2) t))))
      let flat := B1.flatMap id
      let shift : V3 := ⟨shiftComp (flat.map V3.x) N, shiftComp (flat.map V3.y) N,
                         shiftComp (flat.map V3.z) N⟩
      B1.map (fun al => al.map (fun u => incellV (V3.add u shift)))

/-! ## The glide-plane crystal used for claim C1 -/

/-- Input basis of a cubic crystal with a diagonal glide plane: species `a`
at `(0,0,0)` and `(1/2,0,1/2)`, species `b` at `(0,1/4,0)` and
`(1/2,3/4,1/2)`.  Species `b` blocks the pure translation `(1/2,0,1/2)`, so
the crystal does not reduce, but the glide `y -> -y` followed by
`(1/2,0,1/2)` is a space-group operation with a translation that cannot be
removed. -/
def glideBasisIn : List (List V3) :=
  [[⟨0, 0, 0⟩, ⟨1/2, 0, 1/2⟩], [⟨0, 1/4, 0⟩, ⟨1/2, 3/4, 1/2⟩]]

/-- The constructor pipeline of `Crystal.__init__` on the glide crystal:
`incell` each input position, `reduce`, `minlattice`. -/
def glideRM : M3 × List (List V3) :=
  minlatticeQ 8 (reduceQ 8 M3.id (glideBasisIn.map (fun al => al.map incellV))).1
    (reduceQ 8 M3.id (glideBasisIn.map (fun al => al.map incellV))).2

/-- The lattice of the glide crystal after normalization. -/
def glideLatt : M3 := glideRM.1

/-- The stored basis of the glide crystal after `center`. -/
def glideBasis : List (List V3) := centerQ glideRM.2

/-- The space group of the glide crystal. -/
def glideG : List GroupOp :=
  gengroupQ glideLatt (M3.inv3 glideLatt) (metricOf glideLatt) glideBasis


def glideOp : GroupOp :=
  ⟨⟨1, 0, 0, 0, -1, 0, 0, 0, 1⟩, ⟨-1/2, 0, -1/2⟩,
   ⟨1, 0, 0, 0, -1, 0, 0, 0, 1⟩, [[1, 0], [1, 0]]⟩


unseal Rat.add Rat.mul Rat.sub Rat.inv

/-- The space group of the glide crystal, as an explicit list (frozen result
of `gengroupQ`; proved equal to `glideG` below). -/
def glideGL : List GroupOp :=
  [⟨⟨-1, 0, 0, 0, -1, 0, 0, 0, -1⟩, ⟨0, 0, 0⟩, ⟨-1, 0, 0, 0, -1, 0, 0, 0, -1⟩, [[1, 0], [1, 0]]⟩,
   ⟨⟨-1, 0, 0, 0, -1, 0, 0, 0, 1⟩, ⟨0, 0, -1/2⟩, ⟨-1, 0, 0, 0, -1, 0, 0, 0, 1⟩, [[1, 0], [1, 0]]⟩,
   ⟨⟨-1, 0, 0, 0, 1, 0, 0, 0, -1⟩, ⟨-1/2, 0, -1/2⟩, ⟨-1, 0, 0, 0, 1, 0, 0, 0, -1⟩, [[0, 1], [0, 1]]⟩,
   ⟨⟨-1, 0, 0, 0, 1, 0, 0, 0, 1⟩, ⟨-1/2, 0, 0⟩, ⟨-1, 0, 0, 0, 1, 0, 0, 0, 1⟩, [[0, 1], [0, 1]]⟩,
   ⟨⟨0, 0, -1, 0, -1, 0, -1, 0, 0⟩, ⟨0, 0, 0⟩, ⟨0, 0, -1, 0, -1, 0, -1, 0, 0⟩, [[1, 0], [1, 0]]⟩,
   ⟨⟨0, 0, 1, 0, -1, 0, -1, 0, 0⟩, ⟨-1/2, 0, 0⟩, ⟨0, 0, 1, 0, -1, 0, -1, 0, 0⟩, [[1, 0], [1, 0]]⟩,
   ⟨⟨0, 0, -1, 0, 1, 0, -1, 0, 0⟩, ⟨-1/2, 0, -1/2⟩, ⟨0, 0, -1, 0, 1, 0, -1, 0, 0⟩, [[0, 1], [0, 1]]⟩,
   ⟨⟨0, 0, 1, 0, 1, 0, -1, 0, 0⟩, ⟨0, 0, -1/2⟩, ⟨0, 0, 1, 0, 1, 0, -1, 0, 0⟩, [[0, 1], [0, 1]]⟩,
   ⟨⟨0, 0, -1, 0, -1, 0, 1, 0, 0⟩, ⟨0, 0, -1/2⟩, ⟨0, 0, -1, 0, -1, 0, 1, 0, 0⟩, [[1, 0], [1, 0]]⟩,
   ⟨⟨0, 0, 1, 0, -1, 0, 1, 0, 0⟩, ⟨-1/2, 0, -1/2⟩, ⟨0, 0, 1, 0, -1, 0, 1, 0, 0⟩, [[1, 0], [1, 0]]⟩,
   ⟨⟨0, 0, -1, 0, 1, 0, 1, 0, 0⟩, ⟨-1/2, 0, 0⟩, ⟨0, 0, -1, 0, 1, 0, 1, 0, 0⟩, [[0, 1], [0, 1]]⟩,
   ⟨⟨0, 0, 1, 0, 1, 0, 1, 0, 0⟩, ⟨0, 0, 0⟩, ⟨0, 0, 1, 0, 1, 0, 1, 0, 0⟩, [[0, 1], [0, 1]]⟩,
   ⟨⟨1, 0, 0, 0, -1, 0, 0, 0, -1⟩, ⟨-1/2, 0, 0⟩, ⟨1, 0, 0, 0, -1, 0, 0, 0, -1⟩, [[1, 0], [1, 0]]⟩,
   ⟨⟨1, 0, 0, 0, -1, 0, 0, 0, 1⟩, ⟨-1/2, 0, -1/2⟩, ⟨1, 0, 0, 0, -1, 0, 0, 0, 1⟩, [[1, 0], [1, 0]]⟩,
   ⟨⟨1, 0, 0, 0, 1, 0, 0, 0, -1⟩, ⟨0, 0, -1/2⟩, ⟨1, 0, 0, 0, 1, 0, 0, 0, -1⟩, [[0, 1], [0, 1]]⟩,
   ⟨⟨1, 0, 0, 0, 1, 0, 0, 0, 1⟩, ⟨0, 0, 0⟩, ⟨1, 0, 0, 0, 1, 0, 0, 0, 1⟩, [[0, 1], [0, 1]]⟩]

/-- The stored basis of the glide crystal, as a literal (proved equal to the
pipeline result below). -/
def glideBasisL : List (List V3) :=
  [[⟨1/4, 0, 1/4⟩, ⟨3/4, 0, 3/4⟩], [⟨1/4, 1/4, 1/4⟩, ⟨3/4, 3/4, 3/4⟩]]

set_option maxRecDepth 10000 in
theorem glideBasis_eq : glideBasis = glideBasisL := by decide

set_option maxRecDepth 10000 in
theorem glideG_eq : glideG = glideGL := by decide

/-! ## Positions, group action on positions, neighbor lists -/

/-- Floor integer square root by a bounded structural climb (equal to
`Nat.sqrt`, but reducible in the kernel). -/
def isqrtAux : ℕ → ℕ → ℕ
  | 0, _ => 0
  | fuel + 1, n => let r := isqrtAux fuel n; if (r + 1) * (r + 1) ≤ n then r + 1 else r

def isqrt (n : ℕ) : ℕ := isqrtAux n n

/-- `np.round(np.sqrt(q))` for a nonnegative rational, with numpy's
round-half-to-even tie rule (a tie happens exactly when `4q` is an odd
perfect square). -/
def nsqrtRound (q : ℚ) : ℕ :=
  let m := isqrt (Int.toNat ⌊4 * q⌋)
  if m % 2 = 1 ∧ ((m : ℚ)) ^ 2 = 4 * q ∧ ((m - 1) / 2) % 2 = 0 then (m - 1) / 2
  else (m + 1) / 2

/-- `range(-n, n+1)` as integers. -/
def rangeIntSym (n : ℕ) : List ℤ :=
  (List.range (2 * n + 1)).map (fun k => (k : ℤ) - (n : ℤ))

/-- The translation search range of `nnlist`/`jumpnetwork`:
`nmax[i] = int(np.round(np.sqrt(metric[i,i]))) + 1` per axis, then all integer
vectors in the box. -/
def supervectM (M : M3) : List VI3 :=
  let n0 := nsqrtRound (M.entry 0 0) + 1
  let n1 := nsqrtRound (M.entry 1 1) + 1
  let n2 := nsqrtRound (M.entry 2 2) + 1
  (rangeIntSym n0).flatMap (fun a =>
    (rangeIntSym n1).flatMap (fun b =>
      (rangeIntSym n2).map (fun c => (⟨a, b, c⟩ : VI3))))

/-- `Crystal.unit2cart`: `lattice @ (lattvec + uvec)`. -/
def unit2cart (L : M3) (n : VI3) (u : V3) : V3 := M3.mulV L (V3.add n.toV3 u)

/-- `Crystal.pos2cart`: `lattice @ (lattvec + basis[c][i])`. -/
def pos2cartQ (L : M3) (B : List (List V3)) (latt : VI3) (ind : ℕ × ℕ) : V3 :=
  M3.mulV L (V3.add latt.toV3 ((B.getD ind.1 []).getD ind.2 V3.zero))

/-- `Crystal.g_pos`: apply a group operation to an atom given by lattice
vector and site index; the new lattice vector absorbs the exactly-integer
difference `round(rot @ u + trans - basis[newindex])`. -/
def g_posQ (B : List (List V3)) (g : GroupOp) (latt : VI3) (ind : ℕ × ℕ) :
    VI3 × (ℕ × ℕ) :=
  let rotlatt := MI3.mulVI g.rot latt
  let j := (g.indexmap.getD ind.1 []).getD ind.2 0
  let u := (B.getD ind.1 []).getD ind.2 V3.zero
  let u1 := (B.getD ind.1 []).getD j V3.zero
  let delu := nroundV (V3.sub (V3.add (MI3.mulV g.rot u) g.trans) u1)
  (VI3.add rotlatt delu, (ind.1, j))

/-- `Crystal.nnlist`: displacement vectors to same-species positions over the
bounded translation range, kept when `0 < |dx|^2 < cutoff^2`. -/
def nnlistQ (L M : M3) (B : List (List V3)) (ind : ℕ × ℕ) (cutoff : ℚ) : List V3 :=
  let r2 := cutoff * cutoff
  let u0 := (B.getD ind.1 []).getD ind.2 V3.zero
  (B.getD ind.1 []).flatMap (fun u1 =>
    (supervectM M).filterMap (fun n =>
      let dx := unit2cart L n (V3.sub u1 u0)
      if 0 < V3.dot dx dx ∧ V3.dot dx dx < r2 then some dx else none))

/-! ## Jump network -/

/-- One symmetry-equivalence class of transitions: `((i, j), dx)` pairs. -/
abbrev TransList : Type := List ((ℕ × ℕ) × V3)

/-- The `inlist` helper of `jumpnetwork`: is the transition already in some
class of the list (exact index pair, `np.allclose` displacement)? -/
def inlistQ (tup : ℕ × ℕ) (dx : V3) (lis : List TransList) : Bool :=
  lis.any (fun tl => tl.any (fun p => p.1 == tup && nallcloseV dx p.2))

/-- The inner symmetry-orbit loop of `jumpnetwork`: fold over the group,
recomputing the endpoints via `g_pos` and the displacement from the
post-symmetry positions, appending each not-yet-seen transition together with
its explicit reverse.  The Python code iterates over a frozenset in
unspecified order; the set of transitions produced is order-independent, and
the embedding fixes the order of the `gengroupQ` list. -/
def mkOrbit (L : M3) (B : List (List V3)) (chem : ℕ) (G : List GroupOp)
    (i j : ℕ) (n : VI3) : TransList :=
  G.foldl (fun trans g =>
    let r1 := g_posQ B g VI3.zero (chem, i)
    let r2 := g_posQ B g n (chem, j)
    let tup := (r1.2.2, r2.2.2)
    let dx := V3.sub (pos2cartQ L B r2.1 r2.2) (pos2cartQ L B r1.1 r1.2)
    if trans.any (fun p => p.1 == tup && nallcloseV dx p.2) then trans
    else trans ++ [(tup, dx), ((tup.2, tup.1), V3.neg dx)]) []

/-- The candidate-enumeration phase of `jumpnetwork`: all `(i, j, n)` with
`0 < |dx|^2 < cutoff^2`, grouping each not-yet-seen transition into its
symmetry orbit. -/
def jnGen (L M : M3) (B : List (List V3)) (chem : ℕ) (G : List GroupOp)
    (r2 : ℚ) : List TransList :=
  (enumFrom 0 (B.getD chem [])).foldl (fun lis iu0 =>
    (enumFrom 0 (B.getD chem [])).foldl (fun lis ju1 =>
      (supervectM M).foldl (fun lis n =>
        let du := V3.sub ju1.2 iu0.2
        let dx := unit2cart L n du
        if 0 < V3.dot dx dx ∧ V3.dot dx dx < r2 then
          if inlistQ (iu0.1, ju1.1) dx lis then lis
          else lis ++ [mkOrbit L B chem G iu0.1 ju1.1 n]
        else lis) lis) lis) []

/-- Scalar-or-list `closestdistance` argument of `jumpnetwork`. -/
inductive CloseD where
  | scalar (q : ℚ)
  | listD (l : List ℚ)

/-- The per-species squared distance thresholds: the entry for the moving
species `chem` is forced to `-1` (skip) in both the scalar and the list
form. -/
def closest2list (cd : CloseD) (chem Nchem : ℕ) : List ℚ :=
  match cd with
  | .listD l => (enumFrom 0 l).map (fun p => if p.1 ≠ chem then p.2 * p.2 else -1)
  | .scalar q => (List.range Nchem).map (fun c => if c ≠ chem then q * q else -1)

/-- Does some atom of species `c` approach the representative transition of
the class (its first member) within squared distance `m`, using the
point-to-segment projection test. -/
def collideTrans (L : M3) (B : List (List V3)) (chem : ℕ)
    (supervect : List VI3) (c : ℕ) (m : ℚ) (tl : TransList) : Bool :=
  let t := tl.getD 0 ((0, 0), V3.zero)
  let dx := t.2
  (B.getD c []).any (fun u0 => supervect.any (fun n =>
    let xRa := unit2cart L n (V3.sub u0 ((B.getD chem []).getD t.1.1 V3.zero))
    let xRa2 := V3.dot xRa xRa
    let xRadx := V3.dot xRa dx
    let dx2 := V3.dot dx dx
    if 0 ≤ xRadx ∧ xRadx ≤ dx2 then
      let d2 := (xRa2 * dx2 - xRadx * xRadx) / dx2
      nisclose d2 m || d2 < m
    else false))

/-- One species pass of the collision loop.  The Python code removes matching
classes in place while iterating over atoms and translations; since the
removal test of a class depends only on that class's own representative, the
net effect of the pass is this filter.  A negative threshold skips the pass
(`if mindist2 < 0: continue`). -/
def collisionPass (L : M3) (B : List (List V3)) (chem : ℕ)
    (supervect : List VI3) (c : ℕ) (m : ℚ) (lis : List TransList) : List TransList :=
  if m < 0 then lis
  else lis.filter (fun tl => ¬ collideTrans L B chem supervect c m tl)

/-- All collision passes, in species order (`for c, mindist2 in enumerate`). -/
def collisionAll (L : M3) (B : List (List V3)) (chem : ℕ)
    (supervect : List VI3) (c2l : List ℚ) (lis : List TransList) : List TransList :=
  (enumFrom 0 c2l).foldl (fun lis p => collisionPass L B chem supervect p.1 p.2 lis) lis

/-- Sort key of one transition: `i + j + 1e-3 * |dx|^2`. -/
def transKey (p : (ℕ × ℕ) × V3) : ℚ :=
  (p.1.1 : ℚ) + (p.1.2 : ℚ) + (1 / 1000) * V3.dot p.2 p.2

/-- Sort key of a class: minimum of its members' keys. -/
def classKey (tl : TransList) : ℚ :=
  match tl with
  | [] => 0
  | p :: t => t.foldl (fun acc q => min acc (transKey q)) (transKey p)

def insCl (tl : TransList) : List TransList → List TransList
  | [] => [tl]
  | q :: t => if classKey tl ≤ classKey q then tl :: q :: t else q :: insCl tl t

/-- Stable sort of classes by key (Python `list.sort`). -/
def sortClasses : List TransList → List TransList
  | [] => []
  | tl :: t => insCl tl (sortClasses t)

/-- `Crystal.jumpnetwork(chem, cutoff, closestdistance)`: enumerate
transitions, fold into symmetry orbits, filter collisions, sort. -/
def jumpnetworkQ (L M : M3) (B : List (List V3)) (G : List GroupOp)
    (chem : ℕ) (cutoff : ℚ) (cd : CloseD) : List TransList :=
  let sv := supervectM M
  let lis := jnGen L M B chem G (cutoff * cutoff)
  sortClasses (collisionAll L B chem sv (closest2list cd chem B.length) lis)

/-- The group action on a transition used to state orbit closure: reconstruct
the destination lattice vector as in `jumpnetwork2lattice`
(`round(invlatt @ dx + basis[i] - basis[j])`), then transform both endpoints
by `g_pos` and recompute the displacement, exactly as the orbit loop of
`jumpnetwork` does. -/
def applyGtrans (L invL : M3) (B : List (List V3)) (chem : ℕ) (g : GroupOp)
    (p : (ℕ × ℕ) × V3) : (ℕ × ℕ) × V3 :=
  let n := nroundV (V3.add (M3.mulV invL p.2)
    (V3.sub ((B.getD chem []).getD p.1.1 V3.zero) ((B.getD chem []).getD p.1.2 V3.zero)))
  let r1 := g_posQ B g VI3.zero (chem, p.1.1)
  let r2 := g_posQ B g n (chem, p.1.2)
  ((r1.2.2, r2.2.2), V3.sub (pos2cartQ L B r2.1 r2.2) (pos2cartQ L B r1.1 r1.2))

/-! ## The simple-cubic crystal -/

/-- Simple cubic lattice: identity lattice, one atom at the origin. -/
def scLatt : M3 := M3.id

def scBasis : List (List V3) := [[V3.zero]]

/-- Space group of the simple cubic crystal (order 48). -/
def scG : List GroupOp := gengroupQ scLatt (M3.inv3 scLatt) (metricOf scLatt) scBasis

/-- Jump network of the simple cubic crystal with cutoff `11/10` (just above
the nearest-neighbor distance): a single class of the six `±` axis jumps. -/
def scJN : List TransList :=
  jumpnetworkQ scLatt (metricOf scLatt) scBasis scG 0 (11/10) (.scalar 0)



/-- The simple cubic space group as an explicit list of 48 operations
(frozen result of `gengroupQ`; proved equal to `scG` below). -/
def scGL : List GroupOp :=
  [⟨⟨-1, 0, 0, 0, -1, 0, 0, 0, -1⟩, ⟨0, 0, 0⟩, ⟨-1, 0, 0, 0, -1, 0, 0, 0, -1⟩, [[0]]⟩,
   ⟨⟨-1, 0, 0, 0, -1, 0, 0, 0, 1⟩, ⟨0, 0, 0⟩, ⟨-1, 0, 0, 0, -1, 0, 0, 0, 1⟩, [[0]]⟩,
   ⟨⟨-1, 0, 0, 0, 0, -1, 0, -1, 0⟩, ⟨0, 0, 0⟩, ⟨-1, 0, 0, 0, 0, -1, 0, -1, 0⟩, [[0]]⟩,
   ⟨⟨-1, 0, 0, 0, 0, 1, 0, -1, 0⟩, ⟨0, 0, 0⟩, ⟨-1, 0, 0, 0, 0, 1, 0, -1, 0⟩, [[0]]⟩,
   ⟨⟨-1, 0, 0, 0, 0, -1, 0, 1, 0⟩, ⟨0, 0, 0⟩, ⟨-1, 0, 0, 0, 0, -1, 0, 1, 0⟩, [[0]]⟩,
   ⟨⟨-1, 0, 0, 0, 0, 1, 0, 1, 0⟩, ⟨0, 0, 0⟩, ⟨-1, 0, 0, 0, 0, 1, 0, 1, 0⟩, [[0]]⟩,
   ⟨⟨-1, 0, 0, 0, 1, 0, 0, 0, -1⟩, ⟨0, 0, 0⟩, ⟨-1, 0, 0, 0, 1, 0, 0, 0, -1⟩, [[0]]⟩,
   ⟨⟨-1, 0, 0, 0, 1, 0, 0, 0, 1⟩, ⟨0, 0, 0⟩, ⟨-1, 0, 0, 0, 1, 0, 0, 0, 1⟩, [[0]]⟩,
   ⟨⟨0, -1, 0, -1, 0, 0, 0, 0, -1⟩, ⟨0, 0, 0⟩, ⟨0, -1, 0, -1, 0, 0, 0, 0, -1⟩, [[0]]⟩,
   ⟨⟨0, -1, 0, -1, 0, 0, 0, 0, 1⟩, ⟨0, 0, 0⟩, ⟨0, -1, 0, -1, 0, 0, 0, 0, 1⟩, [[0]]⟩,
   ⟨⟨0, 0, -1, -1, 0, 0, 0, -1, 0⟩, ⟨0, 0, 0⟩, ⟨0, 0, -1, -1, 0, 0, 0, -1, 0⟩, [[0]]⟩,
   ⟨⟨0, 0, 1, -1, 0, 0, 0, -1, 0⟩, ⟨0, 0, 0⟩, ⟨0, 0, 1, -1, 0, 0, 0, -1, 0⟩, [[0]]⟩,
   ⟨⟨0, 0, -1, -1, 0, 0, 0, 1, 0⟩, ⟨0, 0, 0⟩, ⟨0, 0, -1, -1, 0, 0, 0, 1, 0⟩, [[0]]⟩,
   ⟨⟨0, 0, 1, -1, 0, 0, 0, 1, 0⟩, ⟨0, 0, 0⟩, ⟨0, 0, 1, -1, 0, 0, 0, 1, 0⟩, [[0]]⟩,
   ⟨⟨0, 1, 0, -1, 0, 0, 0, 0, -1⟩, ⟨0, 0, 0⟩, ⟨0, 1, 0, -1, 0, 0, 0, 0, -1⟩, [[0]]⟩,
   ⟨⟨0, 1, 0, -1, 0, 0, 0, 0, 1⟩, ⟨0, 0, 0⟩, ⟨0, 1, 0, -1, 0, 0, 0, 0, 1⟩, [[0]]⟩,
   ⟨⟨0, -1, 0, 0, 0, -1, -1, 0, 0⟩, ⟨0, 0, 0⟩, ⟨0, -1, 0, 0, 0, -1, -1, 0, 0⟩, [[0]]⟩,
   ⟨⟨0, -1, 0, 0, 0, 1, -1, 0, 0⟩, ⟨0, 0, 0⟩, ⟨0, -1, 0, 0, 0, 1, -1, 0, 0⟩, [[0]]⟩,
   ⟨⟨0, 0, -1, 0, -1, 0, -1, 0, 0⟩, ⟨0, 0, 0⟩, ⟨0, 0, -1, 0, -1, 0, -1, 0, 0⟩, [[0]]⟩,
   ⟨⟨0, 0, 1, 0, -1, 0, -1, 0, 0⟩, ⟨0, 0, 0⟩, ⟨0, 0, 1, 0, -1, 0, -1, 0, 0⟩, [[0]]⟩,
   ⟨⟨0, 0, -1, 0, 1, 0, -1, 0, 0⟩, ⟨0, 0, 0⟩, ⟨0, 0, -1, 0, 1, 0, -1, 0, 0⟩, [[0]]⟩,
   ⟨⟨0, 0, 1, 0, 1, 0, -1, 0, 0⟩, ⟨0, 0, 0⟩, ⟨0, 0, 1, 0, 1, 0, -1, 0, 0⟩, [[0]]⟩,
   ⟨⟨0, 1, 0, 0, 0, -1, -1, 0, 0⟩, ⟨0, 0, 0⟩, ⟨0, 1, 0, 0, 0, -1, -1, 0, 0⟩, [[0]]⟩,
   ⟨⟨0, 1, 0, 0, 0, 1, -1, 0, 0⟩, ⟨0, 0, 0⟩, ⟨0, 1, 0, 0, 0, 1, -1, 0, 0⟩, [[0]]⟩,
   ⟨⟨0, -1, 0, 0, 0, -1, 1, 0, 0⟩, ⟨0, 0, 0⟩, ⟨0, -1, 0, 0, 0, -1, 1, 0, 0⟩, [[0]]⟩,
   ⟨⟨0, -1, 0, 0, 0, 1, 1, 0, 0⟩, ⟨0, 0, 0⟩, ⟨0, -1, 0, 0, 0, 1, 1, 0, 0⟩, [[0]]⟩,
   ⟨⟨0, 0, -1, 0, -1, 0, 1, 0, 0⟩, ⟨0, 0, 0⟩, ⟨0, 0, -1, 0, -1, 0, 1, 0, 0⟩, [[0]]⟩,
   ⟨⟨0, 0, 1, 0, -1, 0, 1, 0, 0⟩, ⟨0, 0, 0⟩, ⟨0, 0, 1, 0, -1, 0, 1, 0, 0⟩, [[0]]⟩,
   ⟨⟨0, 0, -1, 0, 1, 0, 1, 0, 0⟩, ⟨0, 0, 0⟩, ⟨0, 0, -1, 0, 1, 0, 1, 0, 0⟩, [[0]]⟩,
   ⟨⟨0, 0, 1, 0, 1, 0, 1, 0, 0⟩, ⟨0, 0, 0⟩, ⟨0, 0, 1, 0, 1, 0, 1, 0, 0⟩, [[0]]⟩,
   ⟨⟨0, 1, 0, 0, 0, -1, 1, 0, 0⟩, ⟨0, 0, 0⟩, ⟨0, 1, 0, 0, 0, -1, 1, 0, 0⟩, [[0]]⟩,
   ⟨⟨0, 1, 0, 0, 0, 1, 1, 0, 0⟩, ⟨0, 0, 0⟩, ⟨0, 1, 0, 0, 0, 1, 1, 0, 0⟩, [[0]]⟩,
   ⟨⟨0, -1, 0, 1, 0, 0, 0, 0, -1⟩, ⟨0, 0, 0⟩, ⟨0, -1, 0, 1, 0, 0, 0, 0, -1⟩, [[0]]⟩,
   ⟨⟨0, -1, 0, 1, 0, 0, 0, 0, 1⟩, ⟨0, 0, 0⟩, ⟨0, -1, 0, 1, 0, 0, 0, 0, 1⟩, [[0]]⟩,
   ⟨⟨0, 0, -1, 1, 0, 0, 0, -1, 0⟩, ⟨0, 0, 0⟩, ⟨0, 0, -1, 1, 0, 0, 0, -1, 0⟩, [[0]]⟩,
   ⟨⟨0, 0, 1, 1, 0, 0, 0, -1, 0⟩, ⟨0, 0, 0⟩, ⟨0, 0, 1, 1, 0, 0, 0, -1, 0⟩, [[0]]⟩,
   ⟨⟨0, 0, -1, 1, 0, 0, 0, 1, 0⟩, ⟨0, 0, 0⟩, ⟨0, 0, -1, 1, 0, 0, 0, 1, 0⟩, [[0]]⟩,
   ⟨⟨0, 0, 1, 1, 0, 0, 0, 1, 0⟩, ⟨0, 0, 0⟩, ⟨0, 0, 1, 1, 0, 0, 0, 1, 0⟩, [[0]]⟩,
   ⟨⟨0, 1, 0, 1, 0, 0, 0, 0, -1⟩, ⟨0, 0, 0⟩, ⟨0, 1, 0, 1, 0, 0, 0, 0, -1⟩, [[0]]⟩,
   ⟨⟨0, 1, 0, 1, 0, 0, 0, 0, 1⟩, ⟨0, 0, 0⟩, ⟨0, 1, 0, 1, 0, 0, 0, 0, 1⟩, [[0]]⟩,
   ⟨⟨1, 0, 0, 0, -1, 0, 0, 0, -1⟩, ⟨0, 0, 0⟩, ⟨1, 0, 0, 0, -1, 0, 0, 0, -1⟩, [[0]]⟩,
   ⟨⟨1, 0, 0, 0, -1, 0, 0, 0, 1⟩, ⟨0, 0, 0⟩, ⟨1, 0, 0, 0, -1, 0, 0, 0, 1⟩, [[0]]⟩,
   ⟨⟨1, 0, 0, 0, 0, -1, 0, -1, 0⟩, ⟨0, 0, 0⟩, ⟨1, 0, 0, 0, 0, -1, 0, -1, 0⟩, [[0]]⟩,
   ⟨⟨1, 0, 0, 0, 0, 1, 0, -1, 0⟩, ⟨0, 0, 0⟩, ⟨1, 0, 0, 0, 0, 1, 0, -1, 0⟩, [[0]]⟩,
   ⟨⟨1, 0, 0, 0, 0, -1, 0, 1, 0⟩, ⟨0, 0, 0⟩, ⟨1, 0, 0, 0, 0, -1, 0, 1, 0⟩, [[0]]⟩,
   ⟨⟨1, 0, 0, 0, 0, 1, 0, 1, 0⟩, ⟨0, 0, 0⟩, ⟨1, 0, 0, 0, 0, 1, 0, 1, 0⟩, [[0]]⟩,
   ⟨⟨1, 0, 0, 0, 1, 0, 0, 0, -1⟩, ⟨0, 0, 0⟩, ⟨1, 0, 0, 0, 1, 0, 0, 0, -1⟩, [[0]]⟩,
   ⟨⟨1, 0, 0, 0, 1, 0, 0, 0, 1⟩, ⟨0, 0, 0⟩, ⟨1, 0, 0, 0, 1, 0, 0, 0, 1⟩, [[0]]⟩]

set_option maxRecDepth 10000 in
theorem scG_eq : scG = scGL := by decide

/-- The simple cubic jump network at cutoff `11/10`, as a literal: one class
of the six nearest-neighbor jumps. -/
def scJNL : List TransList :=
  [[((0, 0), ⟨1, 0, 0⟩), ((0, 0), ⟨-1, 0, 0⟩), ((0, 0), ⟨0, 1, 0⟩),
    ((0, 0), ⟨0, -1, 0⟩), ((0, 0), ⟨0, 0, 1⟩), ((0, 0), ⟨0, 0, -1⟩)]]

set_option maxRecDepth 10000 in
set_option maxHeartbeats 1000000 in
theorem scJN_eq : scJN = scJNL := by
  show jumpnetworkQ scLatt (metricOf scLatt) scBasis scG 0 (11/10) (.scalar 0) = scJNL
  rw [scG_eq]
  decide

/-- Membership of a transition in a class, as the orbit-deduplication test of
`jumpnetwork` sees it: exact index pair, `np.allclose` displacement. -/
def memTrans (tl : TransList) (p : (ℕ × ℕ) × V3) : Bool :=
  tl.any (fun q => q.1 == p.1 && nallcloseV p.2 q.2)

/-! ## Claim C1: group closure of the derived space group -/

/-- Claim C1: the derived space group is claimed closed under composition and
inverse, with the identity a member.  The code violates the composition and
inverse parts: membership in the frozenset `G` goes through
`GroupOp.__eq__`, which compares translations without reducing them modulo a
lattice vector, even though the stored operations carry `inhalf`-wrapped
translations and `__hash__` keys on the rotation alone precisely because
operations are meant to be identified up to a lattice translation.  On the
glide crystal the diagonal glide `g` (mirror `y` with translation
`(-1/2, 0, -1/2)`) is in `G`, but `g * g` carries translation `(-1, 0, -1)`
and `g.inv()` carries `(1/2, 0, 1/2)`, so neither is an element of `G` as
the claim states; wrapping either translation back into the centered cell
(`GroupOp.inhalf`) recovers a member, and the identity is in `G`. -/
theorem claimC1 :
    memOp glideG glideOp = true ∧
    memOp glideG (GroupOp.mul glideOp glideOp) = false ∧
    memOp glideG glideOp.inv = false ∧
    memOp glideG ((GroupOp.mul glideOp glideOp).inhalfOp) = true ∧
    memOp glideG (glideOp.inv.inhalfOp) = true ∧
    memOp glideG (identOp glideBasis) = true := by
  rw [glideG_eq, glideBasis_eq]
  decide

set_option maxRecDepth 10000 in
set_option maxHeartbeats 4000000 in
/-- Supporting evidence for the intent behind the space group: on the glide
crystal the derived operations do form a group once translations are reduced
into the centered cell, the identification `__hash__`'s rotation-only key
intends: for all `g1, g2` in `G`, `(g1 * g2).inhalf()` is in `G` and
`(g1.inv()).inhalf()` is in `G`, and the identity is in `G`. -/
theorem glideG_wrapped_closure :
    (∀ g1 ∈ glideG, ∀ g2 ∈ glideG,
      memOp glideG ((GroupOp.mul g1 g2).inhalfOp) = true) ∧
    (∀ g ∈ glideG, memOp glideG (g.inv.inhalfOp) = true) ∧
    memOp glideG (identOp glideBasis) = true := by
  rw [glideG_eq, glideBasis_eq]
  decide

/-- The wrapped-closure evidence instantiated at the glide operation. -/
theorem glideG_wrapped_closure_example :
    memOp glideG ((GroupOp.mul glideOp glideOp).inhalfOp) = true ∧
    memOp glideG (glideOp.inv.inhalfOp) = true :=
  ⟨glideG_wrapped_closure.1 glideOp (by rw [glideG_eq]; decide) glideOp
      (by rw [glideG_eq]; decide),
   glideG_wrapped_closure.2.1 glideOp (by rw [glideG_eq]; decide)⟩

/-! ## Claim C3: jump-network classes closed under the group and reversal -/

set_option maxRecDepth 10000 in
set_option maxHeartbeats 4000000 in
/-- Concrete verification of jump-network class closure on the simple cubic
crystal of the spec's scenario (one atom, cutoff just above the
nearest-neighbor distance, trivial collision filter): applying any of the 48
operations to any member of a class lands in that same class (membership as
the orbit dedup test sees it: exact index pair, `np.allclose` displacement),
and every class contains the reverse of each member. -/
theorem scJN_class_closure :
    ∀ cls ∈ scJN, ∀ p ∈ cls,
      (∀ g ∈ scG, memTrans cls (applyGtrans scLatt (M3.inv3 scLatt) scBasis 0 g p) = true) ∧
      memTrans cls ((p.1.2, p.1.1), V3.neg p.2) = true := by
  rw [scJN_eq, scG_eq]
  decide

/-- The class-closure verification instantiated at the nearest-neighbor
class, its first member, and a fourfold rotation. -/
theorem scJN_class_closure_example :
    memTrans [((0, 0), (⟨1, 0, 0⟩ : V3)), ((0, 0), ⟨-1, 0, 0⟩), ((0, 0), ⟨0, 1, 0⟩),
        ((0, 0), ⟨0, -1, 0⟩), ((0, 0), ⟨0, 0, 1⟩), ((0, 0), ⟨0, 0, -1⟩)]
      (applyGtrans scLatt (M3.inv3 scLatt) scBasis 0
        ⟨⟨0, -1, 0, 1, 0, 0, 0, 0, 1⟩, ⟨0, 0, 0⟩, ⟨0, -1, 0, 1, 0, 0, 0, 0, 1⟩, [[0]]⟩
        ((0, 0), ⟨1, 0, 0⟩)) = true ∧
    memTrans [((0, 0), (⟨1, 0, 0⟩ : V3)), ((0, 0), ⟨-1, 0, 0⟩), ((0, 0), ⟨0, 1, 0⟩),
        ((0, 0), ⟨0, -1, 0⟩), ((0, 0), ⟨0, 0, 1⟩), ((0, 0), ⟨0, 0, -1⟩)]
      ((0, 0), V3.neg ⟨1, 0, 0⟩) = true := by
  have h := scJN_class_closure
    [((0, 0), (⟨1, 0, 0⟩ : V3)), ((0, 0), ⟨-1, 0, 0⟩), ((0, 0), ⟨0, 1, 0⟩),
     ((0, 0), ⟨0, -1, 0⟩), ((0, 0), ⟨0, 0, 1⟩), ((0, 0), ⟨0, 0, -1⟩)]
    (by rw [scJN_eq]; decide) ((0, 0), ⟨1, 0, 0⟩) (by decide)
  exact ⟨h.1 ⟨⟨0, -1, 0, 1, 0, 0, 0, 0, 1⟩, ⟨0, 0, 0⟩, ⟨0, -1, 0, 1, 0, 0, 0, 0, 1⟩, [[0]]⟩
    (by rw [scG_eq]; decide), h.2⟩

/-! ## Claim C5: determinants of accepted candidate rotations -/

theorem det_ofCols (r0 r1 r2 : VI3) :
    MI3.det (MI3.ofCols r0 r1 r2) = VI3.dot r0 (VI3.cross r1 r2) := by
  cases r0; cases r1; cases r2
  simp [MI3.det, MI3.ofCols, VI3.dot, VI3.cross]
  ring

theorem mem_candidates {M : M3} {S : MI3} (h : S ∈ candidates M) :
    (MI3.det S).natAbs = 1 := by
  unfold candidates at h
  rw [List.mem_flatMap] at h
  obtain ⟨r0, _, h⟩ := h
  rw [List.mem_flatMap] at h
  obtain ⟨r1, _, h⟩ := h
  rw [List.mem_filterMap] at h
  obtain ⟨r2, _, h⟩ := h
  split at h
  · cases h
    rw [det_ofCols]
    assumption
  · cases h

theorem rot_of_mem_gengroup {L Li M : M3} {B : List (List V3)} {g : GroupOp}
    (h : g ∈ gengroupQ L Li M B) : ∃ S ∈ candidates M, g.rot = S ∧
      ∃ t m, maptranslationQ qtol B (B.map (fun al => al.map (fun u => MI3.mulV S u))) =
        some (t, m) ∧ g = ⟨S, t, M3.mul L (M3.mul (MI3.toM3 S) Li), m⟩ := by
  unfold gengroupQ at h
  rw [List.mem_filterMap] at h
  obtain ⟨S, hS, hf⟩ := h
  refine ⟨S, hS, ?_⟩
  split at hf
  · cases hmap : maptranslationQ qtol B (B.map (fun al => al.map (fun u => MI3.mulV S u))) with
    | none => rw [hmap] at hf; cases hf
    | some tm =>
      obtain ⟨t, m⟩ := tm
      rw [hmap] at hf
      cases hf
      refine ⟨rfl, t, m, rfl, rfl⟩
  · cases hf

/-- Claim C5 (amended): every operation produced by the space-group search
has an integer rotation of determinant `1` or `-1` (the code filters on
`abs(det) == 1`, preserving volume but not necessarily handedness); the
original claim that the determinant is always `+1` is refuted by the
counterexample below. -/
theorem claimC5_amended (L Li M : M3) (B : List (List V3)) (g : GroupOp)
    (h : g ∈ gengroupQ L Li M B) : MI3.det g.rot = 1 ∨ MI3.det g.rot = -1 := by
  obtain ⟨S, hS, hrot, _⟩ := rot_of_mem_gengroup h
  have := mem_candidates hS
  rw [hrot]
  omega

/-- A tetragonal-orthorhombic test crystal: diagonal lattice `(1, 2, 3)`,
one atom at the origin.  Its space group has 8 elements, the diagonal sign
matrices. -/
def d1Latt : M3 := ⟨1, 0, 0, 0, 2, 0, 0, 0, 3⟩

def d1G : List GroupOp := gengroupQ d1Latt (M3.inv3 d1Latt) (metricOf d1Latt) [[V3.zero]]

/-- Claim C5 (counterexample): the space-group search accepts candidates with
determinant `-1` (the filter is `abs(det) == 1`, not `det == 1`): the
inversion is in the derived group of the `d1` crystal and its integer
rotation has determinant `-1`, refuting "every operation in the derived space
group G has an integer rotation matrix with determinant +1". -/
theorem claimC5_counterexample :
    (⟨⟨-1, 0, 0, 0, -1, 0, 0, 0, -1⟩, ⟨0, 0, 0⟩, ⟨-1, 0, 0, 0, -1, 0, 0, 0, -1⟩,
      [[0]]⟩ : GroupOp) ∈ d1G ∧
    MI3.det ⟨-1, 0, 0, 0, -1, 0, 0, 0, -1⟩ = -1 := by
  constructor
  · decide
  · decide

/-- Witness for the amended claim C5 at the identity operation of the `d1`
crystal. -/
theorem claimC5_witness :
    MI3.det (⟨⟨1, 0, 0, 0, 1, 0, 0, 0, 1⟩, ⟨0, 0, 0⟩, ⟨1, 0, 0, 0, 1, 0, 0, 0, 1⟩,
      [[0]]⟩ : GroupOp).rot = 1 ∨
    MI3.det (⟨⟨1, 0, 0, 0, 1, 0, 0, 0, 1⟩, ⟨0, 0, 0⟩, ⟨1, 0, 0, 0, 1, 0, 0, 0, 1⟩,
      [[0]]⟩ : GroupOp).rot = -1 :=
  claimC5_amended d1Latt (M3.inv3 d1Latt) (metricOf d1Latt) [[V3.zero]] _ (by decide)

/-! ## Claim C2: index-map consistency of the derived group -/

theorem findIdxA_some {α : Type} {p : α → Bool} {l : List α} {j : ℕ}
    (h : findIdxA p l = some j) (d : α) :
    j < l.length ∧ p (l.getD j d) = true := by
  induction l generalizing j with
  | nil => cases h
  | cons a t ih =>
    unfold findIdxA at h
    split at h
    · cases h
      simpa
    · rw [Option.map_eq_some'] at h
      obtain ⟨j', hj', rfl⟩ := h
      have := ih hj'
      simpa using this

theorem getD_map {α β : Type} (f : α → β) (l : List α) (i : ℕ) (d : α) (d' : β)
    (h : i < l.length) : (l.map f).getD i d' = f (l.getD i d) := by
  induction l generalizing i with
  | nil => cases h
  | cons a t ih =>
    cases i with
    | zero => rfl
    | succ i => simpa using ih i (by simpa using h)

theorem filterMap_full {α β : Type} {f : α → Option β} {l : List α} {res : List β}
    (h : l.filterMap f = res) (hlen : res.length = l.length) :
    ∀ i (d : α) (e : β), i < l.length → f (l.getD i d) = some (res.getD i e) := by
  induction l generalizing res with
  | nil => intro i d e hi; cases hi
  | cons a t ih =>
    intro i d e hi
    rw [List.filterMap_cons] at h
    cases hfa : f a with
    | none =>
      rw [hfa] at h
      have h' : t.filterMap f = res := h
      have hle := List.length_filterMap_le f t
      rw [h'] at hle
      rw [List.length_cons] at hlen
      omega
    | some b =>
      rw [hfa] at h
      have h' : b :: t.filterMap f = res := h
      subst h'
      cases i with
      | zero => simpa using hfa
      | succ i =>
        have := ih rfl (by simpa using hlen) i d e (by simpa using hi)
        simpa using this

theorem speciesMap_some {θ : ℚ} {t : V3} {a0 a1 : List V3} {ml : List ℕ}
    (h : speciesMap θ t a0 a1 = some ml) :
    ml.length = a0.length ∧
    a1.filterMap (fun rua =>
      findIdxA (fun uj => smallV (inhalfV (V3.sub (V3.sub uj rua) t)) θ) a0) = ml := by
  dsimp only [speciesMap] at h
  split at h
  · cases h
    constructor
    · assumption
    · rfl
  · cases h

theorem tryZip_some {θ : ℚ} {t : V3} {old new : List (List V3)} {ms : List (List ℕ)}
    (h : tryZip θ t old new = some ms) :
    ∀ c, c < old.length → c < new.length →
      speciesMap θ t (old.getD c []) (new.getD c []) = some (ms.getD c []) := by
  induction old generalizing new ms with
  | nil => intro c hc _; cases hc
  | cons a0 r0 ih =>
    intro c hc hc'
    cases new with
    | nil => cases hc'
    | cons a1 r1 =>
      unfold tryZip at h
      cases hsm : speciesMap θ t a0 a1 with
      | none => rw [hsm] at h; cases h
      | some m =>
        rw [hsm] at h
        cases htz : tryZip θ t r0 r1 with
        | none => rw [htz] at h; cases h
        | some ms' =>
          rw [htz] at h
          cases h
          cases c with
          | zero => simpa using hsm
          | succ c =>
            have := ih htz c (by simpa using hc) (by simpa using hc')
            simpa using this

theorem pickFirst_some {α β : Type} {f : α → Option β} {l : List α} {b : β}
    (h : pickFirst f l = some b) : ∃ a ∈ l, f a = some b := by
  induction l with
  | nil => cases h
  | cons a t ih =>
    unfold pickFirst at h
    cases hfa : f a with
    | none =>
      rw [hfa] at h
      obtain ⟨a', ha', hfa'⟩ := ih h
      exact ⟨a', List.mem_cons_of_mem _ ha', hfa'⟩
    | some b' =>
      rw [hfa] at h
      cases h
      exact ⟨a, List.mem_cons_self _ _, hfa⟩

theorem maptranslationQ_some {θ : ℚ} {old new : List (List V3)} {t : V3}
    {ms : List (List ℕ)} (h : maptranslationQ θ old new = some (t, ms)) :
    tryZip θ t old new = some ms := by
  unfold maptranslationQ at h
  obtain ⟨ub, _, hub⟩ := pickFirst_some h
  rw [Option.map_eq_some'] at hub
  obtain ⟨m, hm, heq⟩ := hub
  cases heq
  exact hm

set_option maxHeartbeats 800000 in
/-- Claim C2: for every operation `g` of the derived space group and every
site `(c, i)`, the basis position indexed by `g`'s index map agrees, modulo a
lattice vector and within the position threshold `1e-8`, with the rotated and
translated position `rot @ basis[c][i] + trans`: the wrapped residual
`inhalf(basis[c][indexmap[c][i]] - rot @ basis[c][i] - trans)` is below the
threshold in every component, and the mapped index is in range. -/
theorem claimC2 (L Li M : M3) (B : List (List V3)) (g : GroupOp)
    (hg : g ∈ gengroupQ L Li M B) (c i : ℕ)
    (hc : c < B.length) (hi : i < (B.getD c []).length) :
    (g.indexmap.getD c []).getD i 0 < (B.getD c []).length ∧
    smallV (inhalfV (V3.sub (V3.sub
      ((B.getD c []).getD ((g.indexmap.getD c []).getD i 0) V3.zero)
      (MI3.mulV g.rot ((B.getD c []).getD i V3.zero))) g.trans)) qtol = true := by
  obtain ⟨S, _, _, t, m, hmap, hgeq⟩ := rot_of_mem_gengroup hg
  subst hgeq
  have htz := maptranslationQ_some hmap
  have hlen : c < (B.map (fun al => al.map (fun u => MI3.mulV S u))).length := by
    simpa using hc
  have hsm := tryZip_some htz c hc hlen
  rw [getD_map (fun al => al.map (fun u => MI3.mulV S u)) B c [] [] hc] at hsm
  obtain ⟨hml, hfm⟩ := speciesMap_some hsm
  have hi' : i < ((B.getD c []).map (fun u => MI3.mulV S u)).length := by simpa using hi
  have hfull := filterMap_full hfm (by simpa using hml) i V3.zero 0 hi'
  rw [getD_map (fun u => MI3.mulV S u) (B.getD c []) i V3.zero V3.zero hi] at hfull
  have := findIdxA_some hfull V3.zero
  simpa using this

/-- Witness for claim C2: the inversion operation of the `d1` crystal at its
single site. -/
theorem claimC2_witness :
    ((⟨⟨-1, 0, 0, 0, -1, 0, 0, 0, -1⟩, ⟨0, 0, 0⟩, ⟨-1, 0, 0, 0, -1, 0, 0, 0, -1⟩,
      [[0]]⟩ : GroupOp).indexmap.getD 0 []).getD 0 0 < (([[V3.zero]] : List (List V3)).getD 0 []).length ∧
    smallV (inhalfV (V3.sub (V3.sub
      ((([[V3.zero]] : List (List V3)).getD 0 []).getD
        (((⟨⟨-1, 0, 0, 0, -1, 0, 0, 0, -1⟩, ⟨0, 0, 0⟩, ⟨-1, 0, 0, 0, -1, 0, 0, 0, -1⟩,
          [[0]]⟩ : GroupOp).indexmap.getD 0 []).getD 0 0) V3.zero)
      (MI3.mulV (⟨⟨-1, 0, 0, 0, -1, 0, 0, 0, -1⟩, ⟨0, 0, 0⟩, ⟨-1, 0, 0, 0, -1, 0, 0, 0, -1⟩,
        [[0]]⟩ : GroupOp).rot ((([[V3.zero]] : List (List V3)).getD 0 []).getD 0 V3.zero)))
      (⟨⟨-1, 0, 0, 0, -1, 0, 0, 0, -1⟩, ⟨0, 0, 0⟩, ⟨-1, 0, 0, 0, -1, 0, 0, 0, -1⟩,
        [[0]]⟩ : GroupOp).trans)) qtol = true :=
  claimC2 d1Latt (M3.inv3 d1Latt) (metricOf d1Latt) [[V3.zero]] _ (by decide) 0 0
    (by decide) (by decide)

/-! ## Claim C4: nnlist enumeration -/

/-- Claim C4 (counterexample): the per-axis translation range of `nnlist`
depends only on the metric diagonal, not on the cutoff, so for a cutoff much
larger than the lattice parameter a valid displacement is missed: on the
simple cubic crystal with cutoff `4`, the displacement `(3, 0, 0)` to the
same-species atom three cells over satisfies `0 < |dx| < cutoff` but is not
returned, refuting "every such vector within the cutoff is covered by the
per-axis lattice-translation range". -/
theorem claimC4_counterexample :
    (⟨3, 0, 0⟩ : V3) = unit2cart scLatt ⟨3, 0, 0⟩ (V3.sub V3.zero V3.zero) ∧
    (0 : ℚ) < V3.dot ⟨3, 0, 0⟩ ⟨3, 0, 0⟩ ∧
    V3.dot (⟨3, 0, 0⟩ : V3) ⟨3, 0, 0⟩ < 4 * 4 ∧
    ¬ ((⟨3, 0, 0⟩ : V3) ∈ nnlistQ scLatt (metricOf scLatt) scBasis (0, 0) 4) := by
  refine ⟨by decide, by decide, by decide, ?_⟩
  decide

/-- Claim C4 (amended): `nnlist` returns exactly the displacement vectors
with `0 < |dx| < cutoff` whose lattice translation lies in the bounded
per-axis range derived from the metric diagonal: nothing outside `(0, cutoff)`
is returned (soundness, as claimed), and every vector within the cutoff whose
translation lies in that range is returned (completeness restricted to the
searched range; the unrestricted completeness of the original claim fails for
large cutoffs, see the counterexample). -/
theorem claimC4_amended (L M : M3) (B : List (List V3)) (ind : ℕ × ℕ) (cutoff : ℚ) :
    (∀ dx ∈ nnlistQ L M B ind cutoff,
      0 < V3.dot dx dx ∧ V3.dot dx dx < cutoff * cutoff) ∧
    (∀ u1 ∈ B.getD ind.1 [], ∀ n ∈ supervectM M,
      0 < V3.dot (unit2cart L n (V3.sub u1 ((B.getD ind.1 []).getD ind.2 V3.zero)))
        (unit2cart L n (V3.sub u1 ((B.getD ind.1 []).getD ind.2 V3.zero))) →
      V3.dot (unit2cart L n (V3.sub u1 ((B.getD ind.1 []).getD ind.2 V3.zero)))
        (unit2cart L n (V3.sub u1 ((B.getD ind.1 []).getD ind.2 V3.zero))) < cutoff * cutoff →
      unit2cart L n (V3.sub u1 ((B.getD ind.1 []).getD ind.2 V3.zero)) ∈
        nnlistQ L M B ind cutoff) := by
  constructor
  · intro dx hdx
    unfold nnlistQ at hdx
    rw [List.mem_flatMap] at hdx
    obtain ⟨u1, _, hdx⟩ := hdx
    rw [List.mem_filterMap] at hdx
    obtain ⟨n, _, hdx⟩ := hdx
    have hdx' : (if 0 < V3.dot (unit2cart L n (V3.sub u1 ((B.getD ind.1 []).getD ind.2 V3.zero)))
          (unit2cart L n (V3.sub u1 ((B.getD ind.1 []).getD ind.2 V3.zero))) ∧
        V3.dot (unit2cart L n (V3.sub u1 ((B.getD ind.1 []).getD ind.2 V3.zero)))
          (unit2cart L n (V3.sub u1 ((B.getD ind.1 []).getD ind.2 V3.zero))) < cutoff * cutoff
        then some (unit2cart L n (V3.sub u1 ((B.getD ind.1 []).getD ind.2 V3.zero)))
        else none) = some dx := hdx
    split at hdx'
    · cases hdx'
      assumption
    · cases hdx'
  · intro u1 hu1 n hn h1 h2
    unfold nnlistQ
    rw [List.mem_flatMap]
    refine ⟨u1, hu1, ?_⟩
    rw [List.mem_filterMap]
    refine ⟨n, hn, ?_⟩
    show (if 0 < V3.dot (unit2cart L n (V3.sub u1 ((B.getD ind.1 []).getD ind.2 V3.zero)))
          (unit2cart L n (V3.sub u1 ((B.getD ind.1 []).getD ind.2 V3.zero))) ∧
        V3.dot (unit2cart L n (V3.sub u1 ((B.getD ind.1 []).getD ind.2 V3.zero)))
          (unit2cart L n (V3.sub u1 ((B.getD ind.1 []).getD ind.2 V3.zero))) < cutoff * cutoff
        then some (unit2cart L n (V3.sub u1 ((B.getD ind.1 []).getD ind.2 V3.zero)))
        else none) = some (unit2cart L n (V3.sub u1 ((B.getD ind.1 []).getD ind.2 V3.zero)))
    rw [if_pos ⟨h1, h2⟩]

/-- Witness for the amended claim C4 on the simple cubic crystal: the
nearest-neighbor vector `(1, 0, 0)` at cutoff `11/10`. -/
theorem claimC4_witness :
    unit2cart scLatt ⟨1, 0, 0⟩ (V3.sub V3.zero ((scBasis.getD 0 []).getD 0 V3.zero)) ∈
      nnlistQ scLatt (metricOf scLatt) scBasis (0, 0) (11/10) :=
  (claimC4_amended scLatt (metricOf scLatt) scBasis (0, 0) (11/10)).2
    V3.zero (by decide) ⟨1, 0, 0⟩ (by decide) (by decide) (by decide)

/-! ## Claim C7: minlattice is a no-op on an already-minimized lattice -/

/-- A lattice is minimized in the sense of `Crystal.minlattice`'s fixed
point: squared lengths sorted nondecreasing, right-handed (positive
determinant), and all three Lagrange-reduction quotients round to zero. -/
def minimized (L : M3) : Prop :=
  V3.dot (L.col 0) (L.col 0) ≤ V3.dot (L.col 1) (L.col 1) ∧
  V3.dot (L.col 1) (L.col 1) ≤ V3.dot (L.col 2) (L.col 2) ∧
  0 < L.det ∧
  nround ((metricOf L).a01 / (metricOf L).a00) = 0 ∧
  nround ((metricOf L).a02 / (metricOf L).a00) = 0 ∧
  nround ((metricOf L).a12 / (metricOf L).a11) = 0

theorem plebQ_of_le {a b : ℚ} {i j : ℕ} (hab : a ≤ b) (hij : i ≤ j) :
    plebQ (a, i) (b, j) = true := by
  unfold plebQ
  rcases lt_or_eq_of_le hab with h | h
  · simp [h]
  · subst h
    simp [hij]

theorem sortMagn_sorted {m0 m1 m2 : ℚ} (h01 : m0 ≤ m1) (h12 : m1 ≤ m2) :
    sortMagn [(m0, 0), (m1, 1), (m2, 2)] = [(m0, 0), (m1, 1), (m2, 2)] := by
  have h2 : insMagn (m1, 1) [(m2, 2)] = [(m1, 1), (m2, 2)] := by
    simp only [insMagn]
    rw [if_pos (plebQ_of_le h12 (by norm_num))]
  have h1 : insMagn (m0, 0) [(m1, 1), (m2, 2)] = [(m0, 0), (m1, 1), (m2, 2)] := by
    simp only [insMagn]
    rw [if_pos (plebQ_of_le h01 (by norm_num))]
  simp only [sortMagn]
  rw [show insMagn (m2, 2) ([] : List (ℚ × ℕ)) = [(m2, 2)] from rfl]
  rw [h2, h1]

/-- Claim C7: `minlattice` on a crystal whose lattice is already minimized
(sorted by squared length, right-handed, Lagrange-reduced to a fixed point)
leaves the lattice and the basis unchanged, for any recursion fuel. -/
theorem claimC7 (L : M3) (B : List (List V3)) (h : minimized L) :
    ∀ fuel, minlatticeQ fuel L B = (L, B) := by
  obtain ⟨h01, h12, hdet, hu0, hu1, hu2⟩ := h
  intro fuel
  cases fuel with
  | zero => rfl
  | succ k =>
    simp only [minlatticeQ]
    rw [sortMagn_sorted h01 h12]
    rw [show superFromSorted [(V3.dot (L.col 0) (L.col 0), 0),
        (V3.dot (L.col 1) (L.col 1), 1), (V3.dot (L.col 2) (L.col 2), 2)] = MI3.id from rfl]
    have hflip : ¬ (L.det * ((MI3.det MI3.id : ℤ) : ℚ) < 0) := by
      rw [show ((MI3.det MI3.id : ℤ) : ℚ) = 1 from rfl, mul_one]
      exact not_lt.mpr (le_of_lt hdet)
    rw [if_neg hflip]
    rw [if_pos (rfl : MI3.id = MI3.id)]
    dsimp only
    rw [if_pos ⟨hu0, hu1, hu2⟩]

/-- Witness for claim C7: the identity lattice with a one-atom basis is
minimized and `minlattice` leaves it unchanged. -/
theorem claimC7_witness :
    minlatticeQ 3 M3.id [[⟨1/2, 1/3, 1/4⟩]] = (M3.id, [[⟨1/2, 1/3, 1/4⟩]]) :=
  claimC7 M3.id [[⟨1/2, 1/3, 1/4⟩]]
    (by refine ⟨by norm_num [V3.dot, M3.col, M3.id], by norm_num [V3.dot, M3.col, M3.id],
      by norm_num [M3.det, M3.id], ?_, ?_, ?_⟩ <;> decide) 3

/-! ## Claim C9: a one-atom crystal is centered at the origin -/

theorem lengthsMap_mapmap {α : Type} (f : V3 → α) (B : List (List V3)) :
    (B.map (fun al => al.map f)).map List.length = B.map List.length := by
  induction B with
  | nil => rfl
  | cons al rest ih => simp [ih]

theorem totalCount_mapmap (f : V3 → V3) (B : List (List V3)) :
    totalCount (B.map (fun al => al.map f)) = totalCount B := by
  unfold totalCount
  rw [lengthsMap_mapmap]

theorem maxlenFold_ge_acc (l : List (ℕ × List V3)) (acc : ℕ × ℕ) :
    acc.1 ≤ (l.foldl (fun acc p => if p.2.length > acc.1 then (p.2.length, p.1) else acc) acc).1 := by
  induction l generalizing acc with
  | nil => exact le_refl _
  | cons p rest ih =>
    simp only [List.foldl_cons]
    split
    · exact le_trans (le_of_lt (by assumption)) (ih _)
    · exact ih _

theorem maxlenFold_ge_mem (l : List (ℕ × List V3)) (acc : ℕ × ℕ) (p : ℕ × List V3)
    (hp : p ∈ l) :
    p.2.length ≤ (l.foldl (fun acc p => if p.2.length > acc.1 then (p.2.length, p.1) else acc) acc).1 := by
  induction l generalizing acc with
  | nil => cases hp
  | cons q rest ih =>
    simp only [List.foldl_cons]
    rcases List.mem_cons.mp hp with rfl | hp'
    · split
      · exact maxlenFold_ge_acc rest (p.2.length, p.1)
      · exact le_trans (not_lt.mp (by assumption)) (maxlenFold_ge_acc rest acc)
    · exact ih _ hp'

theorem maxlenFold_cases (l : List (ℕ × List V3)) (acc : ℕ × ℕ) :
    (l.foldl (fun acc p => if p.2.length > acc.1 then (p.2.length, p.1) else acc) acc).1 = acc.1 ∨
    ∃ p ∈ l, (l.foldl (fun acc p => if p.2.length > acc.1 then (p.2.length, p.1) else acc) acc).1 = p.2.length := by
  induction l generalizing acc with
  | nil => exact Or.inl rfl
  | cons q rest ih =>
    simp only [List.foldl_cons]
    split
    · rcases ih ((q.2.length, q.1)) with h | ⟨p, hp, h⟩
      · exact Or.inr ⟨q, List.mem_cons_self _ _, h⟩
      · exact Or.inr ⟨p, List.mem_cons_of_mem _ hp, h⟩
    · rcases ih acc with h | ⟨p, hp, h⟩
      · exact Or.inl h
      · exact Or.inr ⟨p, List.mem_cons_of_mem _ hp, h⟩

theorem mem_enumFrom {α : Type} (l : List α) (i : ℕ) (p : ℕ × α) (hp : p ∈ enumFrom i l) :
    p.2 ∈ l := by
  induction l generalizing i with
  | nil => cases hp
  | cons a t ih =>
    unfold enumFrom at hp
    rcases List.mem_cons.mp hp with rfl | hp'
    · exact List.mem_cons_self _ _
    · exact List.mem_cons_of_mem _ (ih _ hp')

theorem enumFrom_covers {α : Type} (l : List α) (i : ℕ) (a : α) (ha : a ∈ l) :
    ∃ k, (k, a) ∈ enumFrom i l := by
  induction l generalizing i with
  | nil => cases ha
  | cons b t ih =>
    rcases List.mem_cons.mp ha with rfl | ha'
    · exact ⟨i, List.mem_cons_self _ _⟩
    · obtain ⟨k, hk⟩ := ih (i + 1) ha'
      exact ⟨k, List.mem_cons_of_mem _ hk⟩

theorem length_le_totalCount (B : List (List V3)) (al : List V3) (h : al ∈ B) :
    al.length ≤ totalCount B := by
  induction B with
  | nil => cases h
  | cons b rest ih =>
    unfold totalCount at *
    rcases List.mem_cons.mp h with rfl | h'
    · simp
    · simp only [List.map_cons, List.sum_cons]
      exact le_trans (ih h') (by omega)

theorem exists_len_one (B : List (List V3)) (h : totalCount B = 1) :
    ∃ al ∈ B, al.length = 1 := by
  induction B with
  | nil => cases h
  | cons b rest ih =>
    unfold totalCount at h
    simp only [List.map_cons, List.sum_cons] at h
    by_cases hb : b.length = 1
    · exact ⟨b, List.mem_cons_self _ _, hb⟩
    · have : totalCount rest = 1 := by unfold totalCount; omega
      obtain ⟨al, hal, h1⟩ := ih this
      exact ⟨al, List.mem_cons_of_mem _ hal, h1⟩

theorem maxlenIdx_one (B : List (List V3)) (h : totalCount B = 1) :
    (maxlenIdx B).1 = 1 := by
  unfold maxlenIdx
  obtain ⟨al, hal, h1⟩ := exists_len_one B h
  obtain ⟨k, hk⟩ := enumFrom_covers B 0 al hal
  have hge : 1 ≤ (List.foldl (fun acc p => if p.2.length > acc.1 then (p.2.length, p.1) else acc)
      (0, 0) (enumFrom 0 B)).1 := by
    have := maxlenFold_ge_mem (enumFrom 0 B) (0, 0) (k, al) hk
    simpa [h1] using this
  rcases maxlenFold_cases (enumFrom 0 B) (0, 0) with hc | ⟨p, hp, hc⟩
  · omega
  · rw [hc]
    have hmem := mem_enumFrom B 0 p hp
    have := length_le_totalCount B p.2 hmem
    rw [hc] at hge
    omega

theorem reduceQ_one (L : M3) (B : List (List V3)) (h : totalCount B = 1) :
    ∀ fuel, reduceQ fuel L B = (L, B) := by
  intro fuel
  cases fuel with
  | zero => rfl
  | succ k =>
    simp only [reduceQ]
    rw [if_pos (maxlenIdx_one B h)]

theorem minlatticeQ_shape (fuel : ℕ) (L : M3) (B : List (List V3)) :
    ((minlatticeQ fuel L B).2).map List.length = B.map List.length := by
  induction fuel generalizing L B with
  | zero => rfl
  | succ k ih =>
    simp only [minlatticeQ]
    repeat' split
    all_goals try rw [ih]
    all_goals simp only [remapbasisQ, lengthsMap_mapmap]

theorem centerQ_one (B : List (List V3)) (h : totalCount B = 1) :
    centerQ B = [[V3.zero]] := by
  simp only [centerQ]
  rw [if_pos h]

/-- Claim C9: a crystal with exactly one atom in total has, after the
constructor pipeline (`incell`, `reduce`, `minlattice`, `center`), the stored
basis `[[(0, 0, 0)]]`: `center` discards the caller's fractional position and
pins the single site to the origin. -/
theorem claimC9 (L : M3) (B : List (List V3)) (fr fm : ℕ) (h : totalCount B = 1) :
    centerQ ((minlatticeQ fm (reduceQ fr L (B.map (fun al => al.map incellV))).1
      (reduceQ fr L (B.map (fun al => al.map incellV))).2).2) = [[V3.zero]] := by
  have h0 : totalCount (B.map (fun al => al.map incellV)) = 1 := by
    rw [totalCount_mapmap]; exact h
  rw [reduceQ_one L _ h0 fr]
  apply centerQ_one
  unfold totalCount
  rw [minlatticeQ_shape]
  exact h0

/-- Witness for claim C9: one atom at `(1/3, 2/5, 9/10)` is recentered to the
origin regardless of its position. -/
theorem claimC9_witness :
    centerQ ((minlatticeQ 4 (reduceQ 4 M3.id ([[⟨1/3, 2/5, 9/10⟩]].map (fun al => al.map incellV))).1
      (reduceQ 4 M3.id ([[⟨1/3, 2/5, 9/10⟩]].map (fun al => al.map incellV))).2).2) = [[V3.zero]] :=
  claimC9 M3.id [[⟨1/3, 2/5, 9/10⟩]] 4 4 (by decide)

/-! ## Claim C10: no collision filtering against the moving species -/

theorem getD_range (n i : ℕ) (d : ℕ) (h : i < n) : (List.range n).getD i d = i := by
  rw [List.getD_eq_getElem?_getD, List.getElem?_range h]
  rfl

theorem enumFrom_getD (l : List ℚ) (i k : ℕ) (d : ℕ × ℚ) (h : k < l.length) :
    (enumFrom i l).getD k d = (i + k, l.getD k 0) := by
  induction l generalizing i k with
  | nil => cases h
  | cons c t ih =>
    cases k with
    | zero => simp [enumFrom]
    | succ k =>
      unfold enumFrom
      have := ih (i + 1) k (by simpa using h)
      simp only [List.getD_cons_succ, this]
      congr 1
      omega

theorem closest2_scalar (q : ℚ) (Nchem chem : ℕ) (h : chem < Nchem) :
    (closest2list (.scalar q) chem Nchem).getD chem 0 = -1 := by
  unfold closest2list
  rw [getD_map _ _ chem 0 0 (by simpa using h), getD_range Nchem chem 0 h]
  simp

theorem enumFrom_length {α : Type} (l : List α) (i : ℕ) :
    (enumFrom i l).length = l.length := by
  induction l generalizing i with
  | nil => rfl
  | cons a t ih => simp [enumFrom, ih]

theorem closest2_list (cds : List ℚ) (Nchem chem : ℕ) (h : chem < cds.length) :
    (closest2list (.listD cds) chem Nchem).getD chem 0 = -1 := by
  unfold closest2list
  rw [getD_map _ _ chem (0, 0) 0 (by rw [enumFrom_length]; exact h)]
  rw [enumFrom_getD cds 0 chem (0, 0) h]
  simp

theorem collisionPass_neg (L : M3) (B : List (List V3)) (chem : ℕ)
    (sv : List VI3) (c : ℕ) (m : ℚ) (lis : List TransList) (hm : m < 0) :
    collisionPass L B chem sv c m lis = lis := by
  unfold collisionPass
  rw [if_pos hm]

theorem c2l_set_aux (t : List ℚ) (i j : ℕ) (x : ℚ) :
    (enumFrom i (t.set j x)).map (fun p => if p.1 ≠ i + j then p.2 * p.2 else (-1 : ℚ)) =
    (enumFrom i t).map (fun p => if p.1 ≠ i + j then p.2 * p.2 else (-1 : ℚ)) := by
  induction t generalizing i j with
  | nil => rfl
  | cons c t ih =>
    cases j with
    | zero =>
      simp only [List.set_cons_zero, enumFrom, List.map_cons]
      congr 1
      simp
    | succ j =>
      simp only [List.set_cons_succ, enumFrom, List.map_cons]
      congr 1
      have harith : i + (j + 1) = i + 1 + j := by omega
      rw [harith]
      exact ih (i + 1) j

theorem closest2list_set (cds : List ℚ) (chem Nchem : ℕ) (x : ℚ) :
    closest2list (.listD (cds.set chem x)) chem Nchem =
    closest2list (.listD cds) chem Nchem := by
  unfold closest2list
  have := c2l_set_aux cds 0 chem x
  simpa using this

/-- Claim C10: `jumpnetwork` never filters collisions against atoms of the
moving species itself: the squared-distance threshold stored for species
`chem` is `-1` in both the scalar and the per-species-list form of
`closestdistance`, a negative threshold makes the collision pass a no-op, and
consequently the jump network does not depend on the `closestdistance` entry
the caller supplies for species `chem`. -/
theorem claimC10 :
    (∀ (q : ℚ) (Nchem chem : ℕ), chem < Nchem →
      (closest2list (.scalar q) chem Nchem).getD chem 0 = -1) ∧
    (∀ (cds : List ℚ) (Nchem chem : ℕ), chem < cds.length →
      (closest2list (.listD cds) chem Nchem).getD chem 0 = -1) ∧
    (∀ (L : M3) (B : List (List V3)) (chem : ℕ) (sv : List VI3) (c : ℕ) (m : ℚ)
      (lis : List TransList), m < 0 → collisionPass L B chem sv c m lis = lis) ∧
    (∀ (L M : M3) (B : List (List V3)) (G : List GroupOp) (chem : ℕ) (cutoff : ℚ)
      (cds : List ℚ) (x : ℚ),
      jumpnetworkQ L M B G chem cutoff (.listD (cds.set chem x)) =
      jumpnetworkQ L M B G chem cutoff (.listD cds)) := by
  refine ⟨closest2_scalar, fun cds Nchem chem h => closest2_list cds Nchem chem h,
    collisionPass_neg, ?_⟩
  intro L M B G chem cutoff cds x
  unfold jumpnetworkQ
  rw [closest2list_set]

/-- Witness for claim C10: with two species and scalar `closestdistance = 5`,
the stored threshold for the moving species `0` is `-1`, and replacing the
list entry for the moving species leaves the network unchanged. -/
theorem claimC10_witness :
    (closest2list (.scalar 5) 0 2).getD 0 0 = -1 ∧
    jumpnetworkQ scLatt (metricOf scLatt) scBasis scG 0 1 (.listD ([3, 4].set 0 7)) =
      jumpnetworkQ scLatt (metricOf scLatt) scBasis scG 0 1 (.listD [3, 4]) :=
  ⟨claimC10.1 5 2 0 (by decide), claimC10.2.2.2 scLatt (metricOf scLatt) scBasis scG 0 1 [3, 4] 7⟩

/-! ## Claim C6: the GroupOp algebra -/

theorem lexleB_iff (p q : ℕ × ℕ) :
    lexleB p q = true ↔ p.1 < q.1 ∨ (p.1 = q.1 ∧ p.2 ≤ q.2) := by
  unfold lexleB
  simp [Bool.or_eq_true, Bool.and_eq_true, decide_eq_true_eq, beq_iff_eq]

/-- The sorting relation used by `sorted` on pairs. -/
def lexR (p q : ℕ × ℕ) : Prop := lexleB p q = true

theorem lexR_total (p q : ℕ × ℕ) : lexR p q ∨ lexR q p := by
  unfold lexR
  rw [lexleB_iff, lexleB_iff]
  omega

theorem lexR_trans {p q r : ℕ × ℕ} (h1 : lexR p q) (h2 : lexR q r) : lexR p r := by
  unfold lexR at *
  rw [lexleB_iff] at *
  omega

theorem lexR_antisymm {p q : ℕ × ℕ} (h1 : lexR p q) (h2 : lexR q p) : p = q := by
  unfold lexR at *
  rw [lexleB_iff] at *
  have hx : p.1 = q.1 := by omega
  have hy : p.2 = q.2 := by omega
  exact Prod.ext hx hy

instance : IsAntisymm (ℕ × ℕ) lexR := ⟨fun _ _ => lexR_antisymm⟩

theorem mem_insLex {x p : ℕ × ℕ} {l : List (ℕ × ℕ)} :
    x ∈ insLex p l ↔ x = p ∨ x ∈ l := by
  induction l with
  | nil => simp [insLex]
  | cons q t ih =>
    unfold insLex
    split
    · simp [List.mem_cons]
    · simp only [List.mem_cons, ih]
      tauto

theorem insLex_perm (p : ℕ × ℕ) (l : List (ℕ × ℕ)) : List.Perm (insLex p l) (p :: l) := by
  induction l with
  | nil => exact List.Perm.refl _
  | cons q t ih =>
    unfold insLex
    split
    · exact List.Perm.refl _
    · exact List.Perm.trans (List.Perm.cons q ih) (List.Perm.swap p q t)

theorem sortLex_perm (l : List (ℕ × ℕ)) : List.Perm (sortLex l) l := by
  induction l with
  | nil => exact List.Perm.refl _
  | cons p t ih =>
    unfold sortLex
    exact List.Perm.trans (insLex_perm p (sortLex t)) (List.Perm.cons p ih)

theorem insLex_sorted {p : ℕ × ℕ} {l : List (ℕ × ℕ)} (h : List.Sorted lexR l) :
    List.Sorted lexR (insLex p l) := by
  induction l with
  | nil => simp [insLex]
  | cons q t ih =>
    rw [List.sorted_cons] at h
    obtain ⟨hq, ht⟩ := h
    unfold insLex
    split
    · rw [List.sorted_cons]
      constructor
      · intro b hb
        rcases List.mem_cons.mp hb with rfl | hb'
        · assumption
        · exact lexR_trans (by assumption) (hq b hb')
      · rw [List.sorted_cons]
        exact ⟨hq, ht⟩
    · have hqp : lexR q p := by
        rcases lexR_total p q with h' | h'
        · exact absurd h' (by assumption)
        · exact h'
      rw [List.sorted_cons]
      constructor
      · intro b hb
        rcases mem_insLex.mp hb with rfl | hb'
        · exact hqp
        · exact hq b hb'
      · exact ih ht

theorem sortLex_sorted (l : List (ℕ × ℕ)) : List.Sorted lexR (sortLex l) := by
  induction l with
  | nil => simp [sortLex]
  | cons p t ih =>
    unfold sortLex
    exact insLex_sorted ih

theorem nodup_indexOf_getD (l : List ℕ) (j : ℕ) (hnd : l.Nodup) (hj : j < l.length) :
    l.indexOf (l.getD j 0) = j := by
  induction l generalizing j with
  | nil => cases hj
  | cons a t ih =>
    cases j with
    | zero => simp [List.indexOf_cons_self]
    | succ j =>
      have hj' : j < t.length := by simpa using hj
      have hmem : t.getD j 0 ∈ t := by
        rw [List.getD_eq_getElem?_getD, List.getElem?_eq_getElem hj']
        exact List.getElem_mem hj'
      have hne : a ≠ t.getD j 0 := by
        intro heq
        exact (List.nodup_cons.mp hnd).1 (heq ▸ hmem)
      simp only [List.getD_cons_succ]
      rw [List.indexOf_cons_ne t hne]
      rw [ih j (List.nodup_cons.mp hnd).2 hj']

theorem getD_indexOf (l : List ℕ) (y : ℕ) (h : y ∈ l) :
    l.getD (l.indexOf y) 0 = y := by
  induction l with
  | nil => cases h
  | cons a t ih =>
    by_cases hy : a = y
    · subst hy
      simp [List.indexOf_cons_self]
    · rw [List.indexOf_cons_ne t hy]
      simp only [List.getD_cons_succ]
      exact ih (by rcases List.mem_cons.mp h with h' | h'; exact absurd h'.symm hy; exact h')

/-- A per-species index-map entry is a permutation of the position indices. -/
def isPermList (l : List ℕ) : Prop := (∀ x ∈ l, x < l.length) ∧ l.Nodup

theorem mem_of_lt_of_perm (l : List ℕ) (hp : isPermList l) (y : ℕ) (hy : y < l.length) :
    y ∈ l := by
  obtain ⟨hbound, hnd⟩ := hp
  have hsub : l.toFinset ⊆ Finset.range l.length := by
    intro x hx
    rw [Finset.mem_range]
    exact hbound x (List.mem_toFinset.mp hx)
  have hcard : l.toFinset.card = l.length := by
    rw [List.toFinset_card_of_nodup hnd]
  have heq : l.toFinset = Finset.range l.length := by
    apply Finset.eq_of_subset_of_card_le hsub
    rw [hcard, Finset.card_range]
  rw [← List.mem_toFinset, heq, Finset.mem_range]
  exact hy

theorem mem_enumFromN_iff (l : List ℕ) (i : ℕ) (p : ℕ × ℕ) :
    p ∈ enumFrom i l ↔ ∃ j, j < l.length ∧ p.1 = i + j ∧ p.2 = l.getD j 0 := by
  induction l generalizing i with
  | nil => simp [enumFrom]
  | cons a t ih =>
    unfold enumFrom
    simp only [List.mem_cons, ih]
    constructor
    · rintro (rfl | ⟨j, hj, h1, h2⟩)
      · exact ⟨0, by simp, by omega, by simp⟩
      · exact ⟨j + 1, by simpa using hj, by omega, by simpa using h2⟩
    · rintro ⟨j, hj, h1, h2⟩
      cases j with
      | zero =>
        left
        cases p
        simp only [List.getD_cons_zero] at h2
        simp only at h1
        simp [h1, h2]
      | succ j =>
        right
        exact ⟨j, by simpa using hj, by omega, by simpa using h2⟩

/-- The `(value, index)` pair list `[(y, j) for j, y in enumerate(l)]`. -/
def pairsOf (l : List ℕ) : List (ℕ × ℕ) := (enumFrom 0 l).map (fun p => (p.2, p.1))

theorem mem_pairsOf_iff (l : List ℕ) (q : ℕ × ℕ) :
    q ∈ pairsOf l ↔ ∃ j, j < l.length ∧ q = (l.getD j 0, j) := by
  unfold pairsOf
  rw [List.mem_map]
  constructor
  · rintro ⟨p, hp, rfl⟩
    obtain ⟨j, hj, h1, h2⟩ := (mem_enumFromN_iff l 0 p).mp hp
    exact ⟨j, hj, by cases p; simp_all⟩
  · rintro ⟨j, hj, rfl⟩
    refine ⟨(j, l.getD j 0), ?_, rfl⟩
    rw [mem_enumFromN_iff]
    exact ⟨j, hj, by simp, by simp⟩

theorem nodup_enumFromN (l : List ℕ) (i : ℕ) : (enumFrom i l).Nodup := by
  induction l generalizing i with
  | nil => exact List.nodup_nil
  | cons a t ih =>
    unfold enumFrom
    rw [List.nodup_cons]
    refine ⟨?_, ih (i + 1)⟩
    intro hmem
    obtain ⟨j, _, h1, _⟩ := (mem_enumFromN_iff t (i + 1) (i, a)).mp hmem
    simp only at h1
    omega

theorem nodup_pairsOf (l : List ℕ) : (pairsOf l).Nodup := by
  unfold pairsOf
  refine List.Nodup.map ?_ (nodup_enumFromN l 0)
  intro p q hpq
  cases p; cases q
  simpa [Prod.ext_iff, and_comm] using hpq

/-- The sorted pair list of a permutation, in closed form. -/
def targetPairs (l : List ℕ) : List (ℕ × ℕ) :=
  (List.range l.length).map (fun y => (y, l.indexOf y))

theorem sorted_targetPairs (l : List ℕ) : List.Sorted lexR (targetPairs l) := by
  unfold targetPairs
  refine List.Pairwise.map _ ?_ (List.pairwise_lt_range l.length)
  intro a b hab
  unfold lexR
  rw [lexleB_iff]
  exact Or.inl hab

theorem nodup_targetPairs (l : List ℕ) : (targetPairs l).Nodup := by
  unfold targetPairs
  refine List.Nodup.map ?_ (List.nodup_range l.length)
  intro a b hab
  have := congrArg Prod.fst hab
  simpa using this

theorem pairsOf_perm_target (l : List ℕ) (hp : isPermList l) :
    List.Perm (pairsOf l) (targetPairs l) := by
  rw [List.perm_ext_iff_of_nodup (nodup_pairsOf l) (nodup_targetPairs l)]
  intro q
  rw [mem_pairsOf_iff]
  unfold targetPairs
  rw [List.mem_map]
  constructor
  · rintro ⟨j, hj, rfl⟩
    refine ⟨l.getD j 0, ?_, ?_⟩
    · rw [List.mem_range]
      have hmem : l.getD j 0 ∈ l := by
        rw [List.getD_eq_getElem?_getD, List.getElem?_eq_getElem hj]
        exact List.getElem_mem hj
      exact hp.1 _ hmem
    · rw [nodup_indexOf_getD l j hp.2 hj]
  · rintro ⟨y, hy, rfl⟩
    rw [List.mem_range] at hy
    have hmem : y ∈ l := mem_of_lt_of_perm l hp y hy
    refine ⟨l.indexOf y, List.indexOf_lt_length.mpr hmem, ?_⟩
    rw [getD_indexOf l y hmem]

theorem invPermL_eq (l : List ℕ) (hp : isPermList l) :
    invPermL l = (List.range l.length).map (fun y => l.indexOf y) := by
  unfold invPermL
  have hsorted : sortLex (pairsOf l) = targetPairs l := by
    apply List.eq_of_perm_of_sorted
      (List.Perm.trans (sortLex_perm _) (pairsOf_perm_target l hp))
      (sortLex_sorted _) (sorted_targetPairs l)
  show (sortLex (pairsOf l)).map (fun p => p.2) = _
  rw [hsorted]
  unfold targetPairs
  rw [List.map_map]
  rfl

theorem invPerm_getD_comp (l : List ℕ) (hp : isPermList l) :
    (invPermL l).map (fun i => l.getD i 0) = List.range l.length := by
  rw [invPermL_eq l hp, List.map_map]
  simp only [Function.comp_def]
  have h2 : ∀ y ∈ List.range l.length, l.getD (l.indexOf y) 0 = y := by
    intro y hy
    rw [List.mem_range] at hy
    exact getD_indexOf l y (mem_of_lt_of_perm l hp y hy)
  rw [List.map_congr_left h2]
  exact List.map_id _

theorem getD_invPerm_comp (l : List ℕ) (hp : isPermList l) :
    l.map (fun i => (invPermL l).getD i 0) = List.range l.length := by
  rw [invPermL_eq l hp]
  have h1 : ∀ i ∈ l, ((List.range l.length).map (fun y => l.indexOf y)).getD i 0 = l.indexOf i := by
    intro i hi
    rw [getD_map _ _ i 0 0 (by simpa using hp.1 i hi), getD_range _ _ _ (hp.1 i hi)]
  rw [List.map_congr_left h1]
  apply List.ext_getElem (by simp)
  intro k h1 h2
  simp only [List.getElem_map, List.getElem_range]
  have h3 := nodup_indexOf_getD l k hp.2 (by simpa using h1)
  rw [List.getD_eq_getElem?_getD, List.getElem?_eq_getElem (by simpa using h1)] at h3
  simpa using h3

theorem MI3_id_mul (R : MI3) : MI3.mul MI3.id R = R := by
  cases R
  simp only [MI3.mul, MI3.id, MI3.mk.injEq]
  refine ⟨?_, ?_, ?_, ?_, ?_, ?_, ?_, ?_, ?_⟩ <;> ring

theorem MI3_mul_id (R : MI3) : MI3.mul R MI3.id = R := by
  cases R
  simp only [MI3.mul, MI3.id, MI3.mk.injEq]
  refine ⟨?_, ?_, ?_, ?_, ?_, ?_, ?_, ?_, ?_⟩ <;> ring

theorem M3_id_mul (C : M3) : M3.mul M3.id C = C := by
  cases C
  simp only [M3.mul, M3.id, M3.mk.injEq]
  refine ⟨?_, ?_, ?_, ?_, ?_, ?_, ?_, ?_, ?_⟩ <;> ring

theorem M3_mul_id (C : M3) : M3.mul C M3.id = C := by
  cases C
  simp only [M3.mul, M3.id, M3.mk.injEq]
  refine ⟨?_, ?_, ?_, ?_, ?_, ?_, ?_, ?_, ?_⟩ <;> ring

theorem mulV_id (v : V3) : MI3.mulV MI3.id v = v := by
  cases v
  simp only [MI3.mulV, MI3.id, V3.mk.injEq]
  push_cast
  refine ⟨?_, ?_, ?_⟩ <;> ring

theorem add_zero_v (v : V3) : V3.add v V3.zero = v := by
  cases v
  simp only [V3.add, V3.zero, V3.mk.injEq]
  refine ⟨?_, ?_, ?_⟩ <;> ring

theorem mul_smul_adj (R : MI3) :
    MI3.mul R (MI3.smulI R.det R.adj) = MI3.smulI (R.det * R.det) MI3.id := by
  cases R
  simp only [MI3.mul, MI3.smulI, MI3.adj, MI3.det, MI3.id, MI3.mk.injEq]
  refine ⟨?_, ?_, ?_, ?_, ?_, ?_, ?_, ?_, ?_⟩ <;> ring

theorem smul_adj_mul (R : MI3) :
    MI3.mul (MI3.smulI R.det R.adj) R = MI3.smulI (R.det * R.det) MI3.id := by
  cases R
  simp only [MI3.mul, MI3.smulI, MI3.adj, MI3.det, MI3.id, MI3.mk.injEq]
  refine ⟨?_, ?_, ?_, ?_, ?_, ?_, ?_, ?_, ?_⟩ <;> ring

theorem smulI_one_id : MI3.smulI 1 MI3.id = MI3.id := by
  simp only [MI3.smulI, MI3.id, MI3.mk.injEq]
  norm_num

theorem mulV_mulV (A B : MI3) (v : V3) :
    MI3.mulV (MI3.mul A B) v = MI3.mulV A (MI3.mulV B v) := by
  cases A; cases B; cases v
  simp only [MI3.mulV, MI3.mul, V3.mk.injEq]
  push_cast
  refine ⟨?_, ?_, ?_⟩ <;> ring

theorem mulV_neg (A : MI3) (v : V3) :
    MI3.mulV A (V3.neg v) = V3.neg (MI3.mulV A v) := by
  cases A; cases v
  simp only [MI3.mulV, V3.neg, V3.mk.injEq]
  refine ⟨?_, ?_, ?_⟩ <;> ring

theorem add_neg_left (v : V3) : V3.add (V3.neg v) v = V3.zero := by
  cases v
  simp only [V3.add, V3.neg, V3.zero, V3.mk.injEq]
  refine ⟨?_, ?_, ?_⟩ <;> ring

theorem add_neg_right (v : V3) : V3.add v (V3.neg v) = V3.zero := by
  cases v
  simp only [V3.add, V3.neg, V3.zero, V3.mk.injEq]
  refine ⟨?_, ?_, ?_⟩ <;> ring

theorem composeIM_map_right (a : List (List ℕ)) (f : List ℕ → List ℕ) :
    composeIM a (a.map f) = a.map (fun al => (f al).map (fun i => al.getD i 0)) := by
  induction a with
  | nil => rfl
  | cons al rest ih =>
    simp only [composeIM, List.map_cons, List.zipWith_cons_cons] at *
    rw [ih]

theorem composeIM_map_left (a : List (List ℕ)) (f : List ℕ → List ℕ) :
    composeIM (a.map f) a = a.map (fun al => al.map (fun i => (f al).getD i 0)) := by
  induction a with
  | nil => rfl
  | cons al rest ih =>
    simp only [composeIM, List.map_cons, List.zipWith_cons_cons] at *
    rw [ih]

theorem range_getD_map (bl : List ℕ) (n : ℕ) (h : bl.length = n) :
    (List.range n).map (fun i => bl.getD i 0) = bl := by
  apply List.ext_getElem (by simp [h])
  intro k hk1 hk2
  simp only [List.getElem_map, List.getElem_range]
  rw [List.getD_eq_getElem?_getD, List.getElem?_eq_getElem hk2]
  rfl

theorem map_getD_range (bl : List ℕ) (n : ℕ) (h : ∀ x ∈ bl, x < n) :
    bl.map (fun i => (List.range n).getD i 0) = bl := by
  rw [List.map_congr_left (fun i hi => getD_range n i 0 (h i hi))]
  exact List.map_id _

theorem composeIM_ident_left (basis : List (List V3)) (b : List (List ℕ))
    (h : List.Forall₂ (fun (al : List V3) (bl : List ℕ) => ∀ x ∈ bl, x < al.length) basis b) :
    composeIM (basis.map (fun al => List.range al.length)) b = b := by
  induction h with
  | nil => rfl
  | @cons al bl basis' b' hab htail ih =>
    simp only [composeIM, List.map_cons, List.zipWith_cons_cons] at *
    rw [ih, map_getD_range bl al.length hab]

theorem composeIM_ident_right (basis : List (List V3)) (b : List (List ℕ))
    (h : List.Forall₂ (fun (al : List V3) (bl : List ℕ) => bl.length = al.length) basis b) :
    composeIM b (basis.map (fun al => List.range al.length)) = b := by
  induction h with
  | nil => rfl
  | @cons al bl basis' b' hab htail ih =>
    simp only [composeIM, List.map_cons, List.zipWith_cons_cons] at *
    rw [ih, range_getD_map bl al.length hab]

theorem forall2_lengths (basis : List (List V3)) (b : List (List ℕ))
    (h : List.Forall₂ (fun (al : List V3) (bl : List ℕ) => bl.length = al.length) basis b) :
    b.map List.length = basis.map List.length := by
  induction h with
  | nil => rfl
  | @cons al bl basis' b' hab htail ih => simp [ih, hab]

theorem mulV_zero (A : MI3) : MI3.mulV A V3.zero = V3.zero := by
  cases A
  simp only [MI3.mulV, V3.zero, V3.mk.injEq]
  refine ⟨?_, ?_, ?_⟩ <;> ring

theorem zero_add_v (v : V3) : V3.add V3.zero v = v := by
  cases v
  simp only [V3.add, V3.zero, V3.mk.injEq]
  refine ⟨?_, ?_, ?_⟩ <;> ring

/-- Claim C6: the GroupOp algebra.  Composition follows
`(R1,t1)(R2,t2) = (R1 R2, R1 t2 + t1)` with Cartesian rotations multiplied
and index maps composed; `GroupOp.ident(basis)` is a two-sided identity for
any operation whose index map matches the basis shape with in-range entries;
and for any operation with determinant `±1`, orthogonal Cartesian rotation
and per-species-permutation index map, `g * g.inv()` and `g.inv() * g` equal
the identity. -/
theorem claimC6 :
    (∀ g h : GroupOp,
      (g.mul h).rot = MI3.mul g.rot h.rot ∧
      (g.mul h).trans = V3.add (MI3.mulV g.rot h.trans) g.trans ∧
      (g.mul h).cartrot = M3.mul g.cartrot h.cartrot ∧
      (g.mul h).indexmap = composeIM g.indexmap h.indexmap) ∧
    (∀ (basis : List (List V3)) (g : GroupOp),
      List.Forall₂ (fun (al : List V3) (bl : List ℕ) =>
        bl.length = al.length ∧ ∀ x ∈ bl, x < al.length) basis g.indexmap →
      (identOp basis).mul g = g ∧ g.mul (identOp basis) = g) ∧
    (∀ (basis : List (List V3)) (g : GroupOp),
      (MI3.det g.rot = 1 ∨ MI3.det g.rot = -1) →
      M3.mul g.cartrot (M3.transpose g.cartrot) = M3.id →
      M3.mul (M3.transpose g.cartrot) g.cartrot = M3.id →
      List.Forall₂ (fun (al : List V3) (bl : List ℕ) => bl.length = al.length)
        basis g.indexmap →
      (∀ bl ∈ g.indexmap, isPermList bl) →
      g.mul g.inv = identOp basis ∧ g.inv.mul g = identOp basis) := by
  refine ⟨fun g h => ⟨rfl, rfl, rfl, rfl⟩, ?_, ?_⟩
  · intro basis g hf
    have hlen := List.Forall₂.imp (fun {al bl} h => h.1) hf
    have hrange := List.Forall₂.imp (fun {al bl} h => h.2) hf
    cases g with
    | mk R t C im =>
      constructor
      · simp only [GroupOp.mul, identOp, GroupOp.mk.injEq]
        exact ⟨MI3_id_mul R, by rw [mulV_id, add_zero_v], M3_id_mul C,
          composeIM_ident_left basis im hrange⟩
      · simp only [GroupOp.mul, identOp, GroupOp.mk.injEq]
        exact ⟨MI3_mul_id R, by rw [mulV_zero, zero_add_v], M3_mul_id C,
          composeIM_ident_right basis im hlen⟩
  · intro basis g hdet ho1 ho2 hsh hperm
    have hdd : MI3.det g.rot * MI3.det g.rot = 1 := by
      rcases hdet with h | h <;> rw [h] <;> norm_num
    have hmapEq : g.indexmap.map (fun al => List.range al.length) =
        basis.map (fun al => List.range al.length) := by
      have h1 := forall2_lengths basis g.indexmap hsh
      calc g.indexmap.map (fun al => List.range al.length)
          = (g.indexmap.map List.length).map List.range := by rw [List.map_map]; rfl
        _ = (basis.map List.length).map List.range := by rw [h1]
        _ = basis.map (fun al => List.range al.length) := by rw [List.map_map]; rfl
    cases g with
    | mk R t C im =>
      simp only [MI3.det] at hdd
      constructor
      · simp only [GroupOp.mul, GroupOp.inv, identOp, GroupOp.mk.injEq]
        refine ⟨?_, ?_, ho1, ?_⟩
        · rw [mul_smul_adj]
          rw [show MI3.det R * MI3.det R = 1 from by simpa [MI3.det] using hdd]
          exact smulI_one_id
        · rw [mulV_neg, ← mulV_mulV, mul_smul_adj]
          rw [show MI3.det R * MI3.det R = 1 from by simpa [MI3.det] using hdd]
          rw [smulI_one_id, mulV_id, add_neg_left]
        · rw [composeIM_map_right]
          have hA : ∀ al ∈ im, (invPermL al).map (fun i => al.getD i 0) =
              List.range al.length :=
            fun al hal => invPerm_getD_comp al (hperm al hal)
          rw [List.map_congr_left hA]
          simpa using hmapEq
      · simp only [GroupOp.mul, GroupOp.inv, identOp, GroupOp.mk.injEq]
        refine ⟨?_, ?_, ho2, ?_⟩
        · rw [smul_adj_mul]
          rw [show MI3.det R * MI3.det R = 1 from by simpa [MI3.det] using hdd]
          exact smulI_one_id
        · rw [add_neg_right]
        · rw [composeIM_map_left]
          have hB : ∀ al ∈ im, al.map (fun i => (invPermL al).getD i 0) =
              List.range al.length :=
            fun al hal => getD_invPerm_comp al (hperm al hal)
          rw [List.map_congr_left hB]
          simpa using hmapEq

/-- Witness for claim C6: a fourfold rotation with a half-cell translation
and a two-site species swap. -/
theorem claimC6_witness :
    GroupOp.mul ⟨⟨0, -1, 0, 1, 0, 0, 0, 0, 1⟩, ⟨1/2, 0, 0⟩, ⟨0, -1, 0, 1, 0, 0, 0, 0, 1⟩,
        [[1, 0], [0]]⟩
      (GroupOp.inv ⟨⟨0, -1, 0, 1, 0, 0, 0, 0, 1⟩, ⟨1/2, 0, 0⟩, ⟨0, -1, 0, 1, 0, 0, 0, 0, 1⟩,
        [[1, 0], [0]]⟩) =
      identOp [[⟨0, 0, 0⟩, ⟨1/2, 1/2, 0⟩], [⟨1/4, 1/4, 1/4⟩]] ∧
    GroupOp.mul (GroupOp.inv ⟨⟨0, -1, 0, 1, 0, 0, 0, 0, 1⟩, ⟨1/2, 0, 0⟩,
        ⟨0, -1, 0, 1, 0, 0, 0, 0, 1⟩, [[1, 0], [0]]⟩)
      ⟨⟨0, -1, 0, 1, 0, 0, 0, 0, 1⟩, ⟨1/2, 0, 0⟩, ⟨0, -1, 0, 1, 0, 0, 0, 0, 1⟩,
        [[1, 0], [0]]⟩ =
      identOp [[⟨0, 0, 0⟩, ⟨1/2, 1/2, 0⟩], [⟨1/4, 1/4, 1/4⟩]] :=
  claimC6.2.2 [[⟨0, 0, 0⟩, ⟨1/2, 1/2, 0⟩], [⟨1/4, 1/4, 1/4⟩]]
    ⟨⟨0, -1, 0, 1, 0, 0, 0, 0, 1⟩, ⟨1/2, 0, 0⟩, ⟨0, -1, 0, 1, 0, 0, 0, 0, 1⟩, [[1, 0], [0]]⟩
    (by decide) (by decide) (by decide)
    (by refine List.Forall₂.cons (by decide) (List.Forall₂.cons (by decide) List.Forall₂.nil))
    (by
      intro bl hbl
      rcases List.mem_cons.mp hbl with rfl | hbl'
      · exact ⟨by decide, by decide⟩
      · rcases List.mem_cons.mp hbl' with rfl | hbl''
        · exact ⟨by decide, by decide⟩
        · cases hbl'')
